import Mathlib

/-!
# CompressMaps: the compress-then-split pipeline of `main.go`

A shallow embedding of `main.go` and the properties its specification states.

## Modelling conventions

* A filesystem is a finite table from path strings to nodes (a regular file with its
  bytes, or a directory).  A path string stands for the file it names: two different
  strings are two different files (no links, paths already clean).  The directory
  hierarchy is visible only through the prefix test `isUnder`, which `os.RemoveAll`
  and `os.Remove` on a directory need.
* Every system call that the source treats as fallible consumes one entry of the
  `faults` list of the world and fails when that entry is `true`; this stands for
  every cause of failure that the table does not show (permissions, a missing parent
  directory, a full disk).  Causes that the table does show (opening a path that does
  not exist, creating a file where a directory is) fail on their own.
* An open file is a path and a read offset: a read sees what the table holds at that
  path at the time of the read, so a file truncated while it is open is read truncated.
* `os.Stat` is determined by the table: it reports "not exist" or the node.
* `Close` is taken to succeed; the source discards its result everywhere.
* The world carries a `trace` of the mutating system calls that were made, which is how
  "the part files it wrote" and "nothing was touched" are stated.
* Console output is not modelled.
-/

namespace CompressMaps

/-! ## Data model -/

/-- One byte of file content. -/
abbrev Byte := Fin 256

/-- What a path holds: a regular file with its content, or a directory. -/
inductive Node where
  | file (data : List Byte)
  | dir
  deriving DecidableEq, Repr

/-- The filesystem: a table from paths to nodes, at most one entry per path. -/
structure FS where
  entries : List (String × Node)
  deriving DecidableEq, Repr

/-- A mutating system call recorded in the trace of the world. -/
inductive Event where
  | removed (path : String)
  | removedAll (path : String)
  | created (path : String)
  | wrote (path : String) (data : List Byte)
  | madeDir (path : String)
  | failed (call : String) (path : String)
  deriving DecidableEq, Repr

/-- The state of the outside world during a run. -/
structure World where
  fs : FS
  faults : List Bool
  trace : List Event
  deriving DecidableEq, Repr

/-- How a call of `run` or of one of its helpers ends: `ok` is a `nil` error, `error` a
non-nil error with its message, `panic` a Go run-time panic.  `outOfFuel` is the exhausted
iteration bound of `splitLoop`; `splitFile_terminates` shows it is never the result. -/
inductive Outcome where
  | ok
  | error (msg : String)
  | panic (msg : String)
  | outOfFuel
  deriving DecidableEq, Repr

deriving instance DecidableEq for Except

/-- What the program receives from its environment. -/
structure Env where
  /-- The value of `os.Args`. -/
  args : List String
  /-- The function `filepath.Abs` in the working directory of the process; `none` is an error. -/
  abs : String → Option String
  /-- The bytes on standard input. -/
  stdin : String
  /-- The bzip2 stream (level 9) of a byte sequence. -/
  codec : List Byte → List Byte

/-! ## Constants (`main.go` lines 14-16) -/

/-- The constant `splitThresholdBytes` (line 15): 25 MiB. -/
def splitThresholdBytes : Int := 26214400

/-- The constant `splitChunkSize` (line 16): 20 MiB. -/
def splitChunkSize : Int := 20 * 1024 * 1024

/-! ## The filesystem table -/

/-- Look a path up. -/
def lookupPath : List (String × Node) → String → Option Node
  | [], _ => none
  | (q, n) :: rest, p => if q = p then some n else lookupPath rest p

/-- The node at a path, if any. -/
def FS.get (fs : FS) (p : String) : Option Node := lookupPath fs.entries p

/-- Drop the entry of a path. -/
def FS.erase (fs : FS) (p : String) : FS :=
  ⟨fs.entries.filter (fun e => decide (e.1 ≠ p))⟩

/-- Bind a path to a node, replacing what it held. -/
def FS.set (fs : FS) (p : String) (n : Node) : FS :=
  ⟨(p, n) :: (fs.erase p).entries⟩

/-- Whether `p` lies inside the directory `d`, i.e. `d` followed by a slash starts `p`. -/
def isUnder (d p : String) : Bool :=
  (d.data ++ ['/']).isPrefixOf p.data

/-- Whether anything lies inside the directory `d`. -/
def FS.hasChildren (fs : FS) (d : String) : Bool :=
  fs.entries.any (fun e => isUnder d e.1)

/-- Drop a path and everything inside it. -/
def FS.eraseTree (fs : FS) (d : String) : FS :=
  ⟨fs.entries.filter (fun e => decide (e.1 ≠ d) && !isUnder d e.1)⟩

/-- The size `os.FileInfo.Size` reports for a node (directories count as 0 here). -/
def Node.size : Node → Nat
  | .file data => data.length
  | .dir => 0

/-- The size of what a path holds, 0 when it holds nothing. -/
def FS.sizeAt (fs : FS) (p : String) : Nat :=
  match fs.get p with
  | some node => node.size
  | none => 0

/-! ## System calls -/

/-- Take the next entry of the fault list. -/
def World.nextFault (w : World) : Bool × World :=
  (w.faults.headD false, { w with faults := w.faults.tail })

/-- Append an event to the trace. -/
def World.log (w : World) (e : Event) : World :=
  { w with trace := w.trace ++ [e] }

/-- The call `os.Remove`: removes a file or an empty directory; `true` is a nil error. -/
def osRemove (p : String) (w : World) : Bool × World :=
  let (bad, w) := w.nextFault
  if bad then (false, w.log (.failed "Remove" p))
  else match w.fs.get p with
    | none => (false, w.log (.failed "Remove" p))
    | some (.file _) => (true, { w with fs := w.fs.erase p }.log (.removed p))
    | some .dir =>
      if w.fs.hasChildren p then (false, w.log (.failed "Remove" p))
      else (true, { w with fs := w.fs.erase p }.log (.removed p))

/-- The call `os.RemoveAll`: removes a path and all it contains; a path that does not
exist is not an error. -/
def osRemoveAll (p : String) (w : World) : Bool × World :=
  let (bad, w) := w.nextFault
  if bad then (false, w.log (.failed "RemoveAll" p))
  else (true, { w with fs := w.fs.eraseTree p }.log (.removedAll p))

/-- The call `os.MkdirAll`: succeeds on an existing directory, fails on a regular file. -/
def osMkdirAll (p : String) (w : World) : Bool × World :=
  let (bad, w) := w.nextFault
  if bad then (false, w.log (.failed "MkdirAll" p))
  else match w.fs.get p with
    | some (.file _) => (false, w.log (.failed "MkdirAll" p))
    | some .dir => (true, w.log (.madeDir p))
    | none => (true, { w with fs := w.fs.set p .dir }.log (.madeDir p))

/-- The call `os.Open`: succeeds on any existing path (a directory can be opened too). -/
def osOpen (p : String) (w : World) : Bool × World :=
  let (bad, w) := w.nextFault
  if bad then (false, w)
  else match w.fs.get p with
    | none => (false, w)
    | some _ => (true, w)

/-- The call `os.Create`: creates the file or truncates the existing one; fails on a directory. -/
def osCreate (p : String) (w : World) : Bool × World :=
  let (bad, w) := w.nextFault
  if bad then (false, w.log (.failed "Create" p))
  else match w.fs.get p with
    | some .dir => (false, w.log (.failed "Create" p))
    | _ => (true, { w with fs := w.fs.set p (.file []) }.log (.created p))

/-- The first `Write` on a handle returned by `os.Create` (offset 0): the bytes replace the
start of the file. -/
def fileWrite (p : String) (data : List Byte) (w : World) : Bool × World :=
  let (bad, w) := w.nextFault
  if bad then (false, w.log (.failed "Write" p))
  else match w.fs.get p with
    | some (.file old) =>
      (true, { w with fs := w.fs.set p (.file (data ++ old.drop data.length)) }.log (.wrote p data))
    | _ => (false, w.log (.failed "Write" p))

/-- The error value `io.ReadFull` returns along with the bytes. -/
inductive ReadErr where
  | none
  | eof
  | unexpectedEOF
  deriving DecidableEq, Repr

/-- The call `io.ReadFull(inputFile, buffer)` with a buffer of `size` bytes on the open file
`p` at `offset`: `none` is an error other than the two end-of-file errors; otherwise the
bytes read (the buffer up to `n`) and the error.  With an empty buffer nothing is read and
the error is nil.  A full buffer comes with a nil error; no byte at all with `io.EOF`;
fewer than `size` with `io.ErrUnexpectedEOF`.  The bytes are those the file holds at the
time of the read. -/
def readFull (p : String) (offset size : Nat) (w : World) : Option (List Byte × ReadErr) × World :=
  if size = 0 then (some ([], .none), w)
  else
    let (bad, w) := w.nextFault
    if bad then (none, w)
    else match w.fs.get p with
      | some (.file data) =>
        let buf := (data.drop offset).take size
        if buf.length = size then (some (buf, .none), w)
        else if buf.length = 0 then (some (buf, .eof), w)
        else (some (buf, .unexpectedEOF), w)
      | _ => (none, w)

/-! ## Library functions on strings and paths -/

/-- The verb `%03d` of `fmt.Sprintf` on a non-negative integer: its decimal digits, padded
on the left with zeros to three characters. -/
def fmt03d (n : Nat) : String :=
  let ds := Nat.toDigits 10 n
  String.mk (List.replicate (3 - ds.length) '0' ++ ds)

/-- The function `filepath.Join` on a clean directory path and a file name. -/
def filepathJoin (dir name : String) : String :=
  dir ++ "/" ++ name

/-- The function `filepath.Base` (Unix): the last element of the path, trailing slashes
removed; `.` for the empty path and `/` for a path of slashes only. -/
def filepathBase (path : String) : String :=
  if path = "" then "."
  else
    let stripped := (path.data.reverse.dropWhile (fun c => c = '/'))
    let last := (stripped.takeWhile (fun c => c ≠ '/')).reverse
    if last = [] then "/" else String.mk last

/-- The function `unicode.IsSpace`. -/
def isSpace (c : Char) : Bool :=
  c = '\t' || c = '\n' || c = Char.ofNat 0x0B || c = Char.ofNat 0x0C || c = '\r' || c = ' '
    || c = Char.ofNat 0x85 || c = Char.ofNat 0xA0 || c = Char.ofNat 0x1680
    || (0x2000 ≤ c.toNat && c.toNat ≤ 0x200A)
    || c = Char.ofNat 0x2028 || c = Char.ofNat 0x2029 || c = Char.ofNat 0x202F
    || c = Char.ofNat 0x205F || c = Char.ofNat 0x3000

/-- The function `strings.TrimSpace`. -/
def trimSpace (s : String) : String :=
  String.mk (((s.data.dropWhile isSpace).reverse.dropWhile isSpace).reverse)

/-- The function `strings.ToLower`, on the ASCII letters (no other letter lowers to a
letter of `.bsp`, `y` or `yes`). -/
def toLower (s : String) : String :=
  String.mk (s.data.map Char.toLower)

/-- The function `strings.HasSuffix`. -/
def hasSuffix (s suffix : String) : Bool :=
  suffix.data.reverse.isPrefixOf s.data.reverse

/-- The call `reader.ReadString('\n')` on fresh standard input: everything up to and
including the first newline, or all of it when there is none (the error is discarded). -/
def readLine (stdin : String) : String :=
  let line := stdin.data.takeWhile (fun c => c ≠ '\n')
  if line.length < stdin.data.length then String.mk (line ++ ['\n']) else String.mk line

/-! ## The functions of `main.go` -/

/-- The source function `fileExists` (lines 217-223). -/
def fileExists (fs : FS) (path : String) : Bool :=
  match fs.get path with
  | none => false
  | some info => !(info = Node.dir)

/-- The source function `dirExists` (lines 225-231). -/
def dirExists (fs : FS) (path : String) : Bool :=
  match fs.get path with
  | none => false
  | some info => info = Node.dir

/-- The name of part `partNum`: `fmt.Sprintf("%s.part.%03d", baseName, partNum)` (line 193). -/
def partFileName (baseName : String) (partNum : Nat) : String :=
  baseName ++ ".part." ++ fmt03d partNum

/-- The path of part `partNum` (line 194). -/
def partPath (outputDir baseName : String) (partNum : Nat) : String :=
  filepathJoin outputDir (partFileName baseName partNum)

/-- The loop of `splitFile` (lines 181-212).  The first argument bounds the number of
iterations; `offset` is the read position of `inputFile`. -/
def splitLoop (inputPath outputDir baseName : String) (chunkSize : Nat) :
    Nat → Nat → Nat → World → Outcome × World
  | 0, _, _, w => (.outOfFuel, w)
  | fuel + 1, offset, partNum, w =>
    match readFull inputPath offset chunkSize w with
    | (none, w) => (.error "failed to read chunk", w)
    | (some (buf, err), w) =>
      if buf.length = 0 then (.ok, w)
      else
        match osCreate (partPath outputDir baseName partNum) w with
        | (false, w) => (.error "failed to create part file", w)
        | (true, w) =>
          match fileWrite (partPath outputDir baseName partNum) buf w with
          | (false, w) => (.error "failed to write part file", w)
          | (true, w) =>
            if err = .eof ∨ err = .unexpectedEOF then (.ok, w)
            else splitLoop inputPath outputDir baseName chunkSize fuel
              (offset + buf.length) (partNum + 1) w

/-- The source function `splitFile` (lines 171-215).  `make([]byte, chunkSize)` panics on a
negative length.  The loop gets one iteration more than the input has bytes. -/
def splitFile (inputPath outputDir baseName : String) (chunkSize : Int) (w : World) :
    Outcome × World :=
  match osOpen inputPath w with
  | (false, w) => (.error "failed to open input file", w)
  | (true, w) =>
    if chunkSize < 0 then (.panic "makeslice: len out of range", w)
    else
      splitLoop inputPath outputDir baseName chunkSize.toNat (w.fs.sizeAt inputPath + 1) 0 0 w

/-- The source function `compressFile` (lines 141-169).  The input is read after the output
was created, as `io.Copy` does; a directory cannot be read. -/
def compressFile (codec : List Byte → List Byte) (inputPath outputPath : String) (w : World) :
    Outcome × World :=
  match osOpen inputPath w with
  | (false, w) => (.error "failed to open input file", w)
  | (true, w) =>
    match osCreate outputPath w with
    | (false, w) => (.error "failed to create output file", w)
    | (true, w) =>
      match w.nextFault with
      | (true, w) => (.error "failed to create bzip2 writer", w)
      | (false, w) =>
        match w.fs.get inputPath with
        | some (.file data) =>
          match fileWrite outputPath (codec data) w with
          | (false, w) => (.error "failed to compress", w)
          | (true, w) => (.ok, w)
        | _ => (.error "failed to compress", w)

/-- The condition of line 97, with the threshold as an argument. -/
def needsSplit (fileSize threshold : Int) : Bool :=
  decide (fileSize > threshold)

/-- Lines 33-57 of `run`: the argument checks; the result is `absPath`. -/
def validate (env : Env) (w : World) : Except String String :=
  match env.args with
  | _ :: mapFile :: _ =>
    let stat := match env.abs mapFile with
      | some p => w.fs.get p
      | none => none
    if stat = none then .error "file not found"
    else if !hasSuffix (toLower mapFile) ".bsp" then .error "file must have .bsp extension"
    else match env.abs mapFile with
      | some absPath => .ok absPath
      | none => .error "failed to get absolute path"
  | _ => .error "no file provided"

/-- The test of line 70 on the line read from standard input: `true` when the answer is
`y` or `yes`. -/
def confirmed (env : Env) : Bool :=
  let response := trimSpace (toLower (readLine env.stdin))
  response = "y" || response = "yes"

/-- Lines 96-134 of `run`: split when the compressed file is larger than the threshold. -/
def splitIfNeeded (targetPath partsDir : String) (fileSize : Int) (w : World) : Outcome × World :=
  if needsSplit fileSize splitThresholdBytes then
    match osMkdirAll partsDir w with
    | (false, w) => (.error "failed to create parts directory", w)
    | (true, w) =>
      let baseName := filepathBase targetPath
      match splitFile targetPath partsDir baseName splitChunkSize w with
      | (.ok, w) =>
        match osRemove targetPath w with
        | (false, w) => (.error "failed to remove original compressed file", w)
        | (true, w) =>
          match w.nextFault with
          | (true, w) => (.error "failed to read parts directory", w)
          | (false, w) =>
            if dirExists w.fs partsDir then (.ok, w)
            else (.error "failed to read parts directory", w)
      | (.error _, w) => (.error "splitting failed", w)
      | (o, w) => (o, w)
  else (.ok, w)

/-- Lines 80-138 of `run`: compress the map file, then split the result if needed. -/
def compressAndSplit (env : Env) (absPath : String) (w : World) : Outcome × World :=
  let targetPath := absPath ++ ".bz2"
  let partsDir := targetPath ++ ".parts"
  match compressFile env.codec absPath targetPath w with
  | (.ok, w) =>
    match w.fs.get targetPath with
    | none => (.error "failed to stat compressed file", w)
    | some fileInfo => splitIfNeeded targetPath partsDir fileInfo.size w
  | (.error _, w) => (.error "compression failed", w)
  | (o, w) => (o, w)

/-- Lines 59-138 of `run`, from the absolute path of the map file on. -/
def pipeline (env : Env) (absPath : String) (w : World) : Outcome × World :=
  let targetPath := absPath ++ ".bz2"
  let partsDir := targetPath ++ ".parts"
  if fileExists w.fs targetPath || dirExists w.fs partsDir then
    if !confirmed env then (.ok, w)
    else
      let w := (osRemove targetPath w).2
      let w := (osRemoveAll partsDir w).2
      compressAndSplit env absPath w
  else compressAndSplit env absPath w

/-- The source function `run` (lines 32-139). -/
def run (env : Env) (w : World) : Outcome × World :=
  match validate env w with
  | .error msg => (.error msg, w)
  | .ok absPath => pipeline env absPath w

/-! ## Notions used to state the properties -/

/-- The number a string of decimal digits denotes. -/
def digitsValue (cs : List Char) : Nat :=
  cs.foldl (fun acc c => 10 * acc + (c.toNat - 48)) 0

/-- The writes recorded in a trace, in order: path and bytes. -/
def written : List Event → List (String × List Byte)
  | [] => []
  | .wrote p d :: t => (p, d) :: written t
  | _ :: t => written t

/-- The parts a call wrote: the writes the trace gained between `w` and `w'`. -/
def partsWritten (w w' : World) : List (String × List Byte) :=
  written (w'.trace.drop w.trace.length)

/-- The buffers `bufs` as parts `k`, `k + 1`, ... of a split. -/
def numbered (outputDir baseName : String) : Nat → List (List Byte) → List (String × List Byte)
  | _, [] => []
  | k, b :: bs => (partPath outputDir baseName k, b) :: numbered outputDir baseName (k + 1) bs

/-- The consecutive slices of `size` bytes of a byte sequence, the last one shorter when the
length is not a multiple of `size`. -/
def chunksOf (size : Nat) (l : List Byte) : List (List Byte) :=
  (List.range ((l.length + size - 1) / size)).map (fun i => (l.drop (i * size)).take size)

/-! ## Concrete environments and worlds -/

/-- A world with a five-byte file to split into a directory beside it. -/
def plainWorld : World :=
  ⟨⟨[("/d/in", .file [1, 2, 3, 4, 5]), ("/d", .dir)]⟩, [], []⟩

/-- An environment whose map file is `/maps/a.bsp`, given the answer typed at the prompt and
the codec. -/
def mapEnv (answer : String) (codec : List Byte → List Byte) : Env :=
  ⟨["compressmaps", "/maps/a.bsp"], fun s => some s, answer, codec⟩

/-- A world with the map file and no output of an earlier run. -/
def freshWorld : World :=
  ⟨⟨[("/maps/a.bsp", .file [1, 2, 3]), ("/maps", .dir)]⟩, [], []⟩

/-- A world with the output of an earlier run: the compressed file and a parts directory
holding one part.  The field `faults` is left to the caller. -/
def priorWorld (faults : List Bool) : World :=
  ⟨⟨[("/maps/a.bsp.bz2.parts/a.bsp.bz2.part.000", .file [7, 7]),
      ("/maps/a.bsp.bz2.parts", .dir), ("/maps/a.bsp.bz2", .file [9]),
      ("/maps/a.bsp", .file [1, 2, 3]), ("/maps", .dir)]⟩, faults, []⟩

/-! # Properties -/

/-! ## Decimal formatting -/

theorem toDigitsCore_append (fuel : Nat) : ∀ (n : Nat) (ds : List Char), n < fuel →
    Nat.toDigitsCore 10 fuel n ds = Nat.toDigits 10 n ++ ds := by
  induction fuel using Nat.strong_induction_on with
  | _ fuel ih =>
    intro n ds hn
    cases fuel with
    | zero => omega
    | succ f =>
      by_cases h0 : n / 10 = 0
      · simp [Nat.toDigits, Nat.toDigitsCore, h0]
      · have hlt : n / 10 < n := by omega
        have h1 : Nat.toDigitsCore 10 (f + 1) n ds
            = Nat.toDigitsCore 10 f (n / 10) (Nat.digitChar (n % 10) :: ds) := by
          simp [Nat.toDigitsCore, h0]
        have h2 : Nat.toDigits 10 n
            = Nat.toDigitsCore 10 n (n / 10) [Nat.digitChar (n % 10)] := by
          simp [Nat.toDigits, Nat.toDigitsCore, h0]
        rw [h1, h2, ih f (by omega) (n / 10) _ (by omega), ih n (by omega) (n / 10) _ hlt]
        simp

theorem toDigits_small (n : Nat) (h : n < 10) : Nat.toDigits 10 n = [Nat.digitChar n] := by
  have h0 : n / 10 = 0 := by omega
  have h1 : n % 10 = n := by omega
  simp [Nat.toDigits, Nat.toDigitsCore, h0, h1]

theorem toDigits_step (n : Nat) (h : 10 ≤ n) :
    Nat.toDigits 10 n = Nat.toDigits 10 (n / 10) ++ [Nat.digitChar (n % 10)] := by
  have h0 : ¬ n / 10 = 0 := by omega
  have h2 : Nat.toDigits 10 n
      = Nat.toDigitsCore 10 n (n / 10) [Nat.digitChar (n % 10)] := by
    simp [Nat.toDigits, Nat.toDigitsCore, h0]
  rw [h2, toDigitsCore_append n (n / 10) _ (by omega)]

theorem digitChar_value (d : Nat) (h : d < 10) : (Nat.digitChar d).toNat - 48 = d := by
  interval_cases d <;> decide

theorem digitsValue_append (l : List Char) (c : Char) :
    digitsValue (l ++ [c]) = 10 * digitsValue l + (c.toNat - 48) := by
  simp [digitsValue, List.foldl_append]

theorem digitsValue_toDigits (n : Nat) : digitsValue (Nat.toDigits 10 n) = n := by
  induction n using Nat.strong_induction_on with
  | _ n ih =>
    by_cases h : n < 10
    · rw [toDigits_small n h]
      simp [digitsValue, digitChar_value n h]
    · rw [toDigits_step n (by omega), digitsValue_append, ih (n / 10) (by omega),
        digitChar_value (n % 10) (by omega)]
      omega

theorem digitsValue_zeros (k : Nat) (l : List Char) :
    digitsValue (List.replicate k '0' ++ l) = digitsValue l := by
  induction k with
  | zero => simp
  | succ k ih =>
    have : ∀ (m : Nat) (l : List Char),
        List.foldl (fun acc c => 10 * acc + (c.toNat - 48)) 0 (List.replicate m '0' ++ l)
          = List.foldl (fun acc c => 10 * acc + (c.toNat - 48)) 0 l := by
      intro m
      induction m with
      | zero => simp
      | succ m ihm =>
        intro l
        simp only [List.replicate_succ, List.cons_append, List.foldl_cons]
        have hz : 10 * 0 + (('0' : Char).toNat - 48) = 0 := by decide
        rw [hz]
        exact ihm l
    exact this (k + 1) l

theorem digitsValue_fmt03d (n : Nat) : digitsValue (fmt03d n).data = n := by
  simp only [fmt03d]
  rw [digitsValue_zeros, digitsValue_toDigits]

theorem fmt03d_injective : Function.Injective fmt03d := by
  intro a b h
  have := congrArg (fun s => digitsValue s.data) h
  simpa [digitsValue_fmt03d] using this

theorem fmt03d_lt_1000 (n : Nat) (h : n < 1000) :
    fmt03d n = String.mk
      [Nat.digitChar (n / 100), Nat.digitChar (n / 10 % 10), Nat.digitChar (n % 10)] := by
  have z : Nat.digitChar 0 = '0' := rfl
  by_cases h1 : n < 10
  · have a : n / 100 = 0 := by omega
    have b : n / 10 % 10 = 0 := by omega
    have c : n % 10 = n := by omega
    simp [fmt03d, toDigits_small n h1, a, b, c, z]
  · by_cases h2 : n < 100
    · have a : n / 100 = 0 := by omega
      have b : n / 10 % 10 = n / 10 := by omega
      simp [fmt03d, toDigits_step n (by omega), toDigits_small (n / 10) (by omega), a, b, z]
    · have a : n / 10 / 10 = n / 100 := by omega
      have e := toDigits_small (n / 100) (by omega)
      simp [fmt03d, toDigits_step n (by omega), toDigits_step (n / 10) (by omega), a, e]

/-! ## Part names -/

theorem digitChar_lt (d e : Nat) (hd : d < e) (he : e < 10) : Nat.digitChar d < Nat.digitChar e := by
  interval_cases e <;> interval_cases d <;> decide

theorem fmt03d_lt (i j : Nat) (hij : i < j) (hj : j < 1000) :
    List.Lex (· < ·) (fmt03d i).data (fmt03d j).data := by
  rw [fmt03d_lt_1000 i (by omega), fmt03d_lt_1000 j hj]
  show List.Lex (· < ·) [_, _, _] [_, _, _]
  by_cases h2 : i / 100 < j / 100
  · exact List.Lex.rel (digitChar_lt _ _ h2 (by omega))
  · have e2 : i / 100 = j / 100 := by omega
    rw [e2]
    refine List.Lex.cons ?_
    by_cases h1 : i / 10 % 10 < j / 10 % 10
    · exact List.Lex.rel (digitChar_lt _ _ h1 (by omega))
    · have e1 : i / 10 % 10 = j / 10 % 10 := by omega
      rw [e1]
      refine List.Lex.cons ?_
      exact List.Lex.rel (digitChar_lt _ _ (by omega) (by omega))

theorem partFileName_data (baseName : String) (k : Nat) :
    (partFileName baseName k).data = baseName.data ++ (".part.".data ++ (fmt03d k).data) := by
  simp [partFileName, String.data_append]

theorem partFileName_injective (baseName : String) : Function.Injective (partFileName baseName) := by
  intro i j h
  have h1 := congrArg String.data h
  rw [partFileName_data, partFileName_data] at h1
  have h2 := List.append_cancel_left (List.append_cancel_left h1)
  exact fmt03d_injective (String.ext h2)

theorem partPath_data (outputDir baseName : String) (k : Nat) :
    (partPath outputDir baseName k).data
      = outputDir.data ++ ('/' :: (partFileName baseName k).data) := by
  simp [partPath, filepathJoin, String.data_append]

theorem partPath_injective (outputDir baseName : String) :
    Function.Injective (partPath outputDir baseName) := by
  intro i j h
  have h1 := congrArg String.data h
  rw [partPath_data, partPath_data] at h1
  have h2 := List.append_cancel_left h1
  exact partFileName_injective baseName (String.ext (List.cons.inj h2).2)

/-- Claim C5: for every base name, the part names of indices below 1000 are ordered as their
indices: for `i < j < 1000` the name of part `i` is lexicographically below that of part `j`. -/
theorem partFileName_lt_of_lt (baseName : String) (i j : Nat) (hij : i < j) (hj : j < 1000) :
    partFileName baseName i < partFileName baseName j := by
  have h : List.Lex (· < ·) (partFileName baseName i).data (partFileName baseName j).data := by
    rw [partFileName_data, partFileName_data]
    exact List.Lex.append_left _ (List.Lex.append_left _ (fmt03d_lt i j hij hj) _) _
  exact String.lt_iff_toList_lt.2 h

theorem partFileName_lt_of_lt_witness :
    (998 < 999 ∧ 999 < 1000) ∧ partFileName "m.bsp.bz2" 998 < partFileName "m.bsp.bz2" 999 :=
  ⟨by decide, partFileName_lt_of_lt "m.bsp.bz2" 998 999 (by decide) (by decide)⟩

theorem partFileName_order_stops_at_1000 :
    ¬ (partFileName "a" 999 < partFileName "a" 1000) := by
  rw [String.lt_iff_toList_lt]; decide

/-! ## The filesystem table -/

theorem lookupPath_filter_ne (l : List (String × Node)) (p q : String) :
    lookupPath (l.filter (fun e => decide (e.1 ≠ p))) q = if q = p then none else lookupPath l q := by
  induction l with
  | nil => simp [lookupPath]
  | cons e l ih =>
    obtain ⟨k, n⟩ := e
    by_cases hk : k = p
    · subst hk
      by_cases hq : q = k
      · subst hq; simpa [List.filter, lookupPath] using ih
      · have hq2 : ¬ k = q := fun h => hq h.symm
        simpa [List.filter, lookupPath, hq, hq2] using ih
    · by_cases hq : q = p
      · subst hq
        simpa [List.filter, lookupPath, hk] using ih
      · by_cases hkq : k = q
        · simp [List.filter, lookupPath, hk, hq, hkq]
        · simpa [List.filter, lookupPath, hk, hq, hkq] using ih

theorem FS.get_erase (fs : FS) (p q : String) :
    (fs.erase p).get q = if q = p then none else fs.get q := by
  unfold FS.get FS.erase
  exact lookupPath_filter_ne _ _ _

theorem FS.get_set (fs : FS) (p q : String) (n : Node) :
    (fs.set p n).get q = if q = p then some n else fs.get q := by
  by_cases h : q = p
  · subst h; simp [FS.get, FS.set, lookupPath]
  · have h2 : ¬ p = q := fun e => h e.symm
    have h3 := FS.get_erase fs p q
    simp only [FS.get, h, if_false] at h3
    simp only [FS.get, FS.set, lookupPath, h, h2, if_false]
    exact h3

theorem FS.get_set_self (fs : FS) (p : String) (n : Node) : (fs.set p n).get p = some n := by
  simp [FS.get_set]

theorem FS.get_set_ne (fs : FS) {p q : String} (n : Node) (h : q ≠ p) :
    (fs.set p n).get q = fs.get q := by
  simp [FS.get_set, h]

theorem FS.get_none_of_noChildren (fs : FS) (d p : String) (h : fs.hasChildren d = false)
    (hp : isUnder d p = true) : fs.get p = none := by
  obtain ⟨l⟩ := fs
  simp only [FS.hasChildren, FS.get] at *
  induction l with
  | nil => simp [lookupPath]
  | cons e l ih =>
    obtain ⟨k, n⟩ := e
    simp only [List.any_cons, Bool.or_eq_false_iff] at h
    have hk : ¬ k = p := by
      intro e; subst e; rw [hp] at h; exact absurd h.1 (by simp)
    simp [lookupPath, hk, ih h.2]

/-! ## System calls -/

theorem osCreate_true {p : String} {w w' : World} (h : osCreate p w = (true, w')) :
    w'.fs = w.fs.set p (.file []) ∧ w'.trace = w.trace ++ [.created p] ∧
      w'.faults = w.faults.tail := by
  unfold osCreate at h
  simp only [World.nextFault, World.log] at h
  split at h
  · simp at h
  · split at h
    · simp at h
    · simp only [Prod.mk.injEq, true_and] at h
      subst h
      simp

theorem fileWrite_true {p : String} {data : List Byte} {w w' : World}
    (h : fileWrite p data w = (true, w')) :
    ∃ old, w.fs.get p = some (.file old) ∧
      w'.fs = w.fs.set p (.file (data ++ old.drop data.length)) ∧
      w'.trace = w.trace ++ [.wrote p data] ∧ w'.faults = w.faults.tail := by
  unfold fileWrite at h
  simp only [World.nextFault, World.log] at h
  split at h
  · simp at h
  · split at h
    · rename_i old hget
      simp only [Prod.mk.injEq, true_and] at h
      subst h
      exact ⟨old, hget, rfl, rfl, rfl⟩
    · simp at h

theorem readFull_some {p : String} {offset size : Nat} {w w' : World} {buf : List Byte}
    {err : ReadErr} (hs : 0 < size) (h : readFull p offset size w = (some (buf, err), w')) :
    ∃ data, w.fs.get p = some (.file data) ∧ buf = (data.drop offset).take size ∧
      w'.fs = w.fs ∧ w'.trace = w.trace ∧ w'.faults = w.faults.tail ∧
      (err = .none ↔ buf.length = size) ∧ (err = .eof → buf.length = 0) := by
  unfold readFull at h
  simp only [World.nextFault, show ¬ size = 0 by omega, if_false] at h
  split at h
  · simp at h
  · split at h
    · rename_i data hget
      refine ⟨data, hget, ?_⟩
      split at h
      · rename_i hlen
        simp only [Prod.mk.injEq, Option.some.injEq] at h
        obtain ⟨⟨hb, he⟩, hw⟩ := h
        subst hb; subst he; subst hw
        simp [hlen]
      · rename_i hlen
        split at h
        · rename_i h0
          simp only [Prod.mk.injEq, Option.some.injEq] at h
          obtain ⟨⟨hb, he⟩, hw⟩ := h
          subst hb; subst he; subst hw
          refine ⟨rfl, rfl, rfl, rfl, ?_, fun _ => h0⟩
          constructor
          · intro e; cases e
          · intro e; exact absurd e hlen
        · rename_i h0
          simp only [Prod.mk.injEq, Option.some.injEq] at h
          obtain ⟨⟨hb, he⟩, hw⟩ := h
          subst hb; subst he; subst hw
          refine ⟨rfl, rfl, rfl, rfl, ?_, fun e => by cases e⟩
          constructor
          · intro e; cases e
          · intro e; exact absurd e hlen
    · simp at h

theorem readFull_zero (p : String) (offset : Nat) (w : World) :
    readFull p offset 0 w = (some ([], .none), w) := by
  simp [readFull]

theorem readFull_facts {p : String} {offset size : Nat} {w w' : World} {buf : List Byte}
    {err : ReadErr} (h : readFull p offset size w = (some (buf, err), w')) :
    w'.fs = w.fs ∧ w'.trace = w.trace ∧ (err = .none ↔ buf.length = size) ∧
      buf.length ≤ size := by
  rcases Nat.eq_zero_or_pos size with h0 | h0
  · subst h0
    rw [readFull_zero] at h
    simp only [Prod.mk.injEq, Option.some.injEq] at h
    obtain ⟨⟨hb, he⟩, hw⟩ := h
    subst hb; subst he; subst hw
    simp
  · obtain ⟨data, _, hbuf, h1, h2, _, h3, _⟩ := readFull_some h0 h
    refine ⟨h1, h2, h3, ?_⟩
    rw [hbuf]
    simp [List.length_take]

/-! ## The loop of `splitFile` -/

theorem written_append (s t : List Event) : written (s ++ t) = written s ++ written t := by
  induction s with
  | nil => simp [written]
  | cons e s ih => cases e <;> simp [written, ih]

theorem splitLoop_step {inP outD base : String} {C fuel o k : Nat} {w w' : World}
    (h : splitLoop inP outD base C (fuel + 1) o k w = (.ok, w')) :
    ∃ w1 buf err, readFull inP o C w = (some (buf, err), w1) ∧
      ((buf.length = 0 ∧ w' = w1) ∨
       (buf.length ≠ 0 ∧ ∃ w2 w3, osCreate (partPath outD base k) w1 = (true, w2) ∧
          fileWrite (partPath outD base k) buf w2 = (true, w3) ∧
          (((err = .eof ∨ err = .unexpectedEOF) ∧ w' = w3) ∨
           (err = .none ∧
              splitLoop inP outD base C fuel (o + buf.length) (k + 1) w3 = (.ok, w'))))) := by
  unfold splitLoop at h
  cases hr : readFull inP o C w with
  | mk r w1 =>
    rw [hr] at h
    cases r with
    | none => simp at h
    | some be =>
      obtain ⟨buf, err⟩ := be
      refine ⟨w1, buf, err, rfl, ?_⟩
      simp only at h
      by_cases hb : buf.length = 0
      · left
        simp only [hb, if_true, Prod.mk.injEq, true_and] at h
        exact ⟨hb, h.symm⟩
      · right
        refine ⟨hb, ?_⟩
        simp only [hb, if_false] at h
        cases hc : osCreate (partPath outD base k) w1 with
        | mk c w2 =>
          rw [hc] at h
          cases c with
          | false => simp at h
          | true =>
            simp only at h
            cases hw : fileWrite (partPath outD base k) buf w2 with
            | mk c2 w3 =>
              rw [hw] at h
              cases c2 with
              | false => simp at h
              | true =>
                simp only at h
                refine ⟨w2, w3, rfl, hw, ?_⟩
                by_cases he : err = .eof ∨ err = .unexpectedEOF
                · left
                  simp only [he, if_true, Prod.mk.injEq, true_and] at h
                  exact ⟨he, h.symm⟩
                · right
                  simp only [he, if_false] at h
                  refine ⟨?_, h⟩
                  cases err with
                  | none => rfl
                  | eof => exact absurd (Or.inl rfl) he
                  | unexpectedEOF => exact absurd (Or.inr rfl) he

/-! ## Slices of a byte sequence -/

theorem chunksOf_nil (C : Nat) : chunksOf C [] = [] := by
  have : (0 + C - 1) / C = 0 := by
    rcases Nat.eq_zero_or_pos C with h | h
    · subst h; simp
    · exact Nat.div_eq_of_lt (by omega)
  simp only [chunksOf, List.length_nil]
  rw [this]
  rfl

theorem chunksOf_short (C : Nat) (l : List Byte) (h0 : 0 < l.length) (h : l.length ≤ C) :
    chunksOf C l = [l] := by
  have : (l.length + C - 1) / C = 1 := by
    apply Nat.div_eq_of_lt_le <;> omega
  simp only [chunksOf]
  rw [this]
  simp [List.range_succ, List.take_of_length_le h]

theorem chunksOf_full (C : Nat) (l : List Byte) (hC : 0 < C) (h : C ≤ l.length) :
    chunksOf C l = l.take C :: chunksOf C (l.drop C) := by
  have e : (l.length + C - 1) / C = ((l.drop C).length + C - 1) / C + 1 := by
    have : l.length + C - 1 = ((l.drop C).length + C - 1) + C := by
      simp only [List.length_drop]; omega
    rw [this, Nat.add_div_right _ hC]
  simp only [chunksOf]
  rw [e, List.range_succ_eq_map]
  simp only [List.map_cons, List.map_map, Nat.zero_mul, List.drop_zero]
  congr 1
  apply List.map_congr_left
  intro i _
  simp only [Function.comp, List.drop_drop]
  congr 2
  rw [Nat.succ_mul]
  omega

theorem join_chunksOf (C : Nat) (hC : 0 < C) : ∀ (n : Nat) (l : List Byte), l.length = n →
    (chunksOf C l).flatten = l := by
  intro n
  induction n using Nat.strong_induction_on with
  | _ n ih =>
    intro l hl
    by_cases h0 : l.length = 0
    · have : l = [] := List.length_eq_zero.mp h0
      subst this
      simp [chunksOf_nil]
    · by_cases h : C ≤ l.length
      · rw [chunksOf_full C l hC h, List.flatten_cons,
          ih (l.drop C).length (by simp only [List.length_drop]; omega) _ rfl]
        exact List.take_append_drop C l
      · rw [chunksOf_short C l (by omega) (by omega)]
        simp

theorem map_fst_numbered (outD base : String) : ∀ (bufs : List (List Byte)) (k : Nat),
    (numbered outD base k bufs).map Prod.fst
      = (List.range bufs.length).map (fun i => partPath outD base (k + i)) := by
  intro bufs
  induction bufs with
  | nil => intro k; simp [numbered]
  | cons b bs ih =>
    intro k
    simp only [numbered, List.map_cons, List.length_cons, List.range_succ_eq_map, List.map_map]
    rw [ih (k + 1)]
    simp only [Nat.add_zero, List.cons.injEq, true_and]
    apply List.map_congr_left
    intro i _
    simp only [Function.comp]
    congr 1
    omega

theorem map_snd_numbered (outD base : String) : ∀ (bufs : List (List Byte)) (k : Nat),
    (numbered outD base k bufs).map Prod.snd = bufs := by
  intro bufs
  induction bufs with
  | nil => intro k; simp [numbered]
  | cons b bs ih => intro k; simp [numbered, ih (k + 1)]

theorem length_numbered (outD base : String) (bufs : List (List Byte)) (k : Nat) :
    (numbered outD base k bufs).length = bufs.length := by
  have := congrArg List.length (map_snd_numbered outD base bufs k)
  simpa using this

/-! ## What a successful loop wrote -/

theorem splitLoop_spec (inP outD base : String) (C : Nat) (hC : 0 < C)
    (hna : ∀ i, partPath outD base i ≠ inP) (data : List Byte) :
    ∀ (fuel o k : Nat) (w w' : World), w.fs.get inP = some (.file data) →
      splitLoop inP outD base C fuel o k w = (.ok, w') →
      ∃ t, w'.trace = w.trace ++ t ∧
        written t = numbered outD base k (chunksOf C (data.drop o)) ∧
        (∀ q, (∀ i, i < (chunksOf C (data.drop o)).length → q ≠ partPath outD base (k + i)) →
          w'.fs.get q = w.fs.get q) ∧
        (∀ i b, (chunksOf C (data.drop o))[i]? = some b →
          w'.fs.get (partPath outD base (k + i)) = some (.file b)) := by
  intro fuel
  induction fuel with
  | zero => intro o k w w' _ h; simp [splitLoop] at h
  | succ fuel ih =>
    intro o k w w' hin h
    obtain ⟨w1, buf, err, hr, hcase⟩ := splitLoop_step h
    obtain ⟨data', hget', hbuf, hfs1, htr1, _, herr, _⟩ := readFull_some hC hr
    have hd : data' = data := by
      rw [hin] at hget'; cases hget'; rfl
    subst hd
    have hlen : buf.length = min C (data'.length - o) := by
      rw [hbuf]; simp [List.length_take, List.length_drop]
    rcases hcase with ⟨hb0, hw'⟩ | ⟨hb, w2, w3, hc, hw, hrest⟩
    · subst hw'
      have hnil : data'.drop o = [] := by
        apply List.length_eq_zero.mp
        simp only [List.length_drop]; omega
      refine ⟨[], by simp [htr1], by simp [hnil, chunksOf_nil, written, numbered], ?_, ?_⟩
      · intro q _; rw [hfs1]
      · intro i b hi; simp [hnil, chunksOf_nil] at hi
    · obtain ⟨hfs2, htr2, _⟩ := osCreate_true hc
      obtain ⟨old, hold, hfs3, htr3, _⟩ := fileWrite_true hw
      have hold' : old = [] := by
        rw [hfs2, FS.get_set_self] at hold; cases hold; rfl
      subst hold'
      have hfs : w3.fs = (w2.fs.set (partPath outD base k) (.file buf)) := by
        rw [hfs3]; simp
      have htr : w3.trace = w.trace ++ [.created (partPath outD base k),
          .wrote (partPath outD base k) buf] := by
        rw [htr3, htr2, htr1]; simp
      have hget3 : ∀ q, q ≠ partPath outD base k → w3.fs.get q = w.fs.get q := by
        intro q hq
        rw [hfs, FS.get_set_ne _ _ hq, hfs2, FS.get_set_ne _ _ hq, hfs1]
      have hself : w3.fs.get (partPath outD base k) = some (.file buf) := by
        rw [hfs, FS.get_set_self]
      rcases hrest with ⟨he, hw'⟩ | ⟨he, hrec⟩
      · subst hw'
        have hne : buf.length ≠ C := by
          intro e
          have := herr.2 e
          rcases he with e1 | e1 <;> rw [e1] at this <;> cases this
        have hshort : (data'.drop o).length ≤ C := by
          simp only [List.length_drop]; omega
        have hpos : 0 < (data'.drop o).length := by
          simp only [List.length_drop]; omega
        have hbuf' : buf = data'.drop o := by
          rw [hbuf, List.take_of_length_le hshort]
        rw [chunksOf_short C _ hpos hshort, ← hbuf']
        refine ⟨_, htr, by simp [written, numbered], ?_, ?_⟩
        · intro q hq; exact hget3 q (by simpa using hq 0 (by simp))
        · intro i b hi
          cases i with
          | zero =>
            simp only [List.getElem?_cons_zero, Option.some.injEq] at hi
            subst hi; simpa using hself
          | succ i => simp at hi
      · have hfull : buf.length = C := herr.1 he
        have hlong : C ≤ (data'.drop o).length := by
          simp only [List.length_drop]; omega
        have hin3 : w3.fs.get inP = some (.file data') := by
          rw [hget3 inP (fun e => hna k e.symm)]; exact hin
        obtain ⟨t, ht, hwr, hframe, hcont⟩ := ih _ _ _ _ hin3 hrec
        have hdrop : (data'.drop o).drop C = data'.drop (o + buf.length) := by
          rw [List.drop_drop, hfull]
        rw [chunksOf_full C _ hC hlong, ← hbuf, hdrop]
        refine ⟨[.created (partPath outD base k), .wrote (partPath outD base k) buf] ++ t,
          by rw [ht, htr]; simp, ?_, ?_, ?_⟩
        · rw [written_append, hwr]; simp [written, numbered]
        · intro q hq
          rw [hframe q (fun i hi => by
            have := hq (i + 1) (by simpa using hi)
            rwa [show k + (i + 1) = k + 1 + i by omega] at this)]
          exact hget3 q (by simpa using hq 0 (by simp))
        · intro i b hi
          cases i with
          | zero =>
            simp only [List.getElem?_cons_zero, Option.some.injEq] at hi
            subst hi
            rw [Nat.add_zero, hframe _ (fun i _ e => by
              have := partPath_injective outD base e; omega)]
            exact hself
          | succ i =>
            simp only [List.getElem?_cons_succ] at hi
            have := hcont i b hi
            rw [show k + (i + 1) = k + 1 + i by omega]
            exact this

theorem splitLoop_terminates (inP outD base : String) (C : Nat) :
    ∀ (fuel o k : Nat) (w : World), w.fs.sizeAt inP - o < fuel →
      (splitLoop inP outD base C fuel o k w).1 ≠ .outOfFuel := by
  intro fuel
  induction fuel with
  | zero => intro o k w h; omega
  | succ fuel ih =>
    intro o k w hsz
    unfold splitLoop
    cases hr : readFull inP o C w with
    | mk r w1 =>
      cases r with
      | none => simp
      | some be =>
        obtain ⟨buf, err⟩ := be
        simp only
        by_cases hb : buf.length = 0
        · simp [hb]
        · simp only [hb, if_false]
          have hCpos : 0 < C := by
            have := (readFull_facts hr).2.2.2
            omega
          obtain ⟨data, hget, hbuf, hfs1, _, _, herr, _⟩ := readFull_some hCpos hr
          cases hc : osCreate (partPath outD base k) w1 with
          | mk c w2 =>
            cases c with
            | false => simp
            | true =>
              simp only
              cases hw : fileWrite (partPath outD base k) buf w2 with
              | mk c2 w3 =>
                cases c2 with
                | false => simp
                | true =>
                  simp only
                  by_cases he : err = .eof ∨ err = .unexpectedEOF
                  · simp [he]
                  · simp only [he, if_false]
                    apply ih
                    have hnone : err = .none := by
                      cases err with
                      | none => rfl
                      | eof => exact absurd (Or.inl rfl) he
                      | unexpectedEOF => exact absurd (Or.inr rfl) he
                    have hfull : buf.length = C := herr.1 hnone
                    have hlen : buf.length = min C (data.length - o) := by
                      rw [hbuf]; simp [List.length_take, List.length_drop]
                    have hsz0 : w.fs.sizeAt inP = data.length := by
                      simp [FS.sizeAt, hget, Node.size]
                    obtain ⟨hfs2, _, _⟩ := osCreate_true hc
                    obtain ⟨old, hold, hfs3, _, _⟩ := fileWrite_true hw
                    have hold' : old = [] := by
                      rw [hfs2, FS.get_set_self] at hold; cases hold; rfl
                    subst hold'
                    have hfs : w3.fs = (w2.fs.set (partPath outD base k) (.file buf)) := by
                      rw [hfs3]; simp
                    by_cases hal : inP = partPath outD base k
                    · have : w3.fs.sizeAt inP = buf.length := by
                        simp [FS.sizeAt, hfs, hal, FS.get_set_self, Node.size]
                      omega
                    · have : w3.fs.sizeAt inP = data.length := by
                        simp only [FS.sizeAt]
                        rw [hfs, FS.get_set_ne _ _ hal, hfs2, FS.get_set_ne _ _ hal, hfs1, hget]
                        rfl
                      omega

theorem osOpen_true {p : String} {w w' : World} (h : osOpen p w = (true, w')) :
    w'.fs = w.fs ∧ w'.trace = w.trace ∧ w'.faults = w.faults.tail := by
  unfold osOpen at h
  simp only [World.nextFault] at h
  split at h
  · simp at h
  · split at h
    · simp at h
    · simp only [Prod.mk.injEq, true_and] at h
      subst h
      simp

/-- The iteration bound of `splitFile` is never reached. -/
theorem splitFile_terminates (inP outD base : String) (C : Int) (w : World) :
    (splitFile inP outD base C w).1 ≠ .outOfFuel := by
  unfold splitFile
  cases ho : osOpen inP w with
  | mk c w1 =>
    cases c with
    | false => simp
    | true =>
      simp only
      by_cases hneg : C < 0
      · simp [hneg]
      · simp only [hneg, if_false]
        exact splitLoop_terminates _ _ _ _ _ _ _ _ (by omega)

theorem splitFile_ok {inP outD base : String} {C : Int} {w : World}
    (h : (splitFile inP outD base C w).1 = .ok) :
    0 ≤ C ∧ ∃ w1, w1.fs = w.fs ∧ w1.trace = w.trace ∧ w1.faults = w.faults.tail ∧
      splitLoop inP outD base C.toNat (w1.fs.sizeAt inP + 1) 0 0 w1
        = (.ok, (splitFile inP outD base C w).2) := by
  unfold splitFile at h ⊢
  cases ho : osOpen inP w with
  | mk c w1 =>
    rw [ho] at h
    cases c with
    | false => simp at h
    | true =>
      simp only at h ⊢
      obtain ⟨h1, h2, h3⟩ := osOpen_true ho
      by_cases hneg : C < 0
      · simp [hneg] at h
      · simp only [hneg, if_false] at h ⊢
        exact ⟨by omega, w1, h1, h2, h3, Prod.ext h rfl⟩

/-! ## The claims about `splitFile` -/

theorem partsWritten_of_trace {w w' : World} {t : List Event} (h : w'.trace = w.trace ++ t) :
    partsWritten w w' = written t := by
  simp [partsWritten, h]

theorem mem_numbered (outD base : String) : ∀ (bufs : List (List Byte)) (k : Nat)
    (e : String × List Byte), e ∈ numbered outD base k bufs →
      ∃ i, bufs[i]? = some e.2 ∧ e.1 = partPath outD base (k + i) := by
  intro bufs
  induction bufs with
  | nil => intro k e h; simp [numbered] at h
  | cons b bs ih =>
    intro k e h
    simp only [numbered, List.mem_cons] at h
    rcases h with h | h
    · subst h; exact ⟨0, by simp, by simp⟩
    · obtain ⟨i, h1, h2⟩ := ih (k + 1) e h
      exact ⟨i + 1, by simpa using h1, by rw [h2]; congr 1; omega⟩

theorem splitFile_spec {inP outD base : String} {C : Int} {w : World} {data : List Byte}
    (hC : 1 ≤ C) (hin : w.fs.get inP = some (.file data))
    (hna : ∀ k, partPath outD base k ≠ inP)
    (hok : (splitFile inP outD base C w).1 = .ok) :
    (∃ t, (splitFile inP outD base C w).2.trace = w.trace ++ t ∧
      written t = numbered outD base 0 (chunksOf C.toNat data)) ∧
    (∀ q, (∀ i, i < (chunksOf C.toNat data).length → q ≠ partPath outD base i) →
      (splitFile inP outD base C w).2.fs.get q = w.fs.get q) ∧
    (∀ i b, (chunksOf C.toNat data)[i]? = some b →
      (splitFile inP outD base C w).2.fs.get (partPath outD base i) = some (.file b)) := by
  obtain ⟨_, w1, h1, h2, _, hloop⟩ := splitFile_ok hok
  have hin1 : w1.fs.get inP = some (.file data) := by rw [h1]; exact hin
  obtain ⟨t, ht, hwr, hframe, hcont⟩ :=
    splitLoop_spec inP outD base C.toNat (by omega) hna data _ _ _ _ _ hin1 hloop
  simp only [List.drop_zero] at hwr hcont
  refine ⟨⟨t, by rw [ht, h2], hwr⟩, ?_, ?_⟩
  · intro q hq
    rw [hframe q (fun i hi => by simpa using hq i (by simpa using hi)), h1]
  · intro i b hi
    simpa using hcont i b hi

theorem isUnder_partPath (outD base : String) (k : Nat) :
    isUnder outD (partPath outD base k) = true := by
  simp only [isUnder, partPath_data]
  rw [List.isPrefixOf_iff_prefix]
  exact ⟨(partFileName base k).data, by simp⟩

theorem isUnder_length {d p : String} (h : isUnder d p = true) : d.length < p.length := by
  simp only [isUnder] at h
  rw [List.isPrefixOf_iff_prefix] at h
  have := h.length_le
  simp only [List.length_append, List.length_singleton] at this
  simp only [String.length]
  omega

theorem partPath_ne_of_not_under {outD base inP : String} (h : isUnder outD inP = false)
    (k : Nat) : partPath outD base k ≠ inP := by
  intro e
  rw [← e, isUnder_partPath] at h
  exact absurd h (by simp)

theorem osMkdirAll_true {p : String} {w w' : World} (h : osMkdirAll p w = (true, w')) :
    w'.trace = w.trace ++ [.madeDir p] ∧ w'.faults = w.faults.tail ∧
      w'.fs.get p = some .dir ∧ (∀ q, q ≠ p → w'.fs.get q = w.fs.get q) ∧
      w.fs.get p ≠ some (.file []) ∧ (∀ d, w.fs.get p ≠ some (.file d)) := by
  unfold osMkdirAll at h
  simp only [World.nextFault, World.log] at h
  split at h
  · simp at h
  · split at h
    · simp at h
    · rename_i hget
      simp only [Prod.mk.injEq, true_and] at h
      subst h
      simp [hget]
    · rename_i hget
      simp only [Prod.mk.injEq, true_and] at h
      subst h
      refine ⟨rfl, rfl, by simp [FS.get_set_self], ?_, by simp [hget], by simp [hget]⟩
      intro q hq
      simp [FS.get_set_ne _ _ hq]

theorem osRemove_true {p : String} {w w' : World} (h : osRemove p w = (true, w')) :
    w'.trace = w.trace ++ [.removed p] ∧ w'.faults = w.faults.tail ∧
      w'.fs = w.fs.erase p := by
  unfold osRemove at h
  simp only [World.nextFault, World.log] at h
  split at h
  · simp at h
  · split at h
    · simp at h
    · simp only [Prod.mk.injEq, true_and] at h
      subst h
      simp
    · split at h
      · simp at h
      · simp only [Prod.mk.injEq, true_and] at h
        subst h
        simp

theorem compressFile_ok {codec : List Byte → List Byte} {inP outP : String} {w : World}
    {src : List Byte} (hne : inP ≠ outP) (hin : w.fs.get inP = some (.file src))
    (hok : (compressFile codec inP outP w).1 = .ok) :
    (compressFile codec inP outP w).2.trace
        = w.trace ++ [.created outP, .wrote outP (codec src)] ∧
      (compressFile codec inP outP w).2.fs.get outP = some (.file (codec src)) ∧
      (∀ q, q ≠ outP → (compressFile codec inP outP w).2.fs.get q = w.fs.get q) := by
  unfold compressFile at hok ⊢
  cases ho : osOpen inP w with
  | mk c w1 =>
    rw [ho] at hok
    cases c with
    | false => simp at hok
    | true =>
      obtain ⟨hfs1, htr1, _⟩ := osOpen_true ho
      simp only at hok ⊢
      cases hc : osCreate outP w1 with
      | mk c2 w2 =>
        rw [hc] at hok
        cases c2 with
        | false => simp at hok
        | true =>
          obtain ⟨hfs2, htr2, _⟩ := osCreate_true hc
          simp only at hok ⊢
          cases hf : w2.nextFault with
          | mk b w3 =>
            rw [hf] at hok
            have hw3 : w3.fs = w2.fs ∧ w3.trace = w2.trace := by
              simp only [World.nextFault, Prod.mk.injEq] at hf
              rw [← hf.2]; simp
            cases b with
            | true => simp at hok
            | false =>
              simp only at hok ⊢
              have hin3 : w3.fs.get inP = some (.file src) := by
                rw [hw3.1, hfs2, FS.get_set_ne _ _ hne, hfs1]; exact hin
              rw [hin3] at hok ⊢
              simp only at hok ⊢
              cases hwr : fileWrite outP (codec src) w3 with
              | mk c3 w4 =>
                rw [hwr] at hok
                cases c3 with
                | false => simp at hok
                | true =>
                  obtain ⟨old, hold, hfs4, htr4, _⟩ := fileWrite_true hwr
                  have hold' : old = [] := by
                    rw [hw3.1, hfs2, FS.get_set_self] at hold; cases hold; rfl
                  subst hold'
                  simp only
                  refine ⟨?_, ?_, ?_⟩
                  · rw [htr4, hw3.2, htr2, htr1]; simp
                  · rw [hfs4, FS.get_set_self]; simp
                  · intro q hq
                    rw [hfs4, FS.get_set_ne _ _ hq, hw3.1, hfs2, FS.get_set_ne _ _ hq, hfs1]

theorem ne_of_length_lt {a b : String} (h : a.length < b.length) : a ≠ b := by
  intro e; subst e; omega

theorem isUnder_false_of_length_le {d p : String} (h : p.length ≤ d.length) :
    isUnder d p = false := by
  cases hu : isUnder d p with
  | false => rfl
  | true => have := isUnder_length hu; omega

theorem splitIfNeeded_small {T P : String} {size : Int} {w : World}
    (h : needsSplit size splitThresholdBytes = false) : splitIfNeeded T P size w = (.ok, w) := by
  simp [splitIfNeeded, h]

theorem splitIfNeeded_split {T P : String} {size : Int} {w : World} {art : List Byte}
    (hbig : needsSplit size splitThresholdBytes = true)
    (hin : w.fs.get T = some (.file art)) (hlen : T.length < P.length)
    (hok : (splitIfNeeded T P size w).1 = .ok) :
    (∃ t, (splitIfNeeded T P size w).2.trace = w.trace ++ (.madeDir P :: t) ++ [.removed T] ∧
      written t = numbered P (filepathBase T) 0 (chunksOf splitChunkSize.toNat art)) ∧
    (splitIfNeeded T P size w).2.fs.get T = none ∧
    (splitIfNeeded T P size w).2.fs.get P = some .dir ∧
    (∀ i b, (chunksOf splitChunkSize.toNat art)[i]? = some b →
      (splitIfNeeded T P size w).2.fs.get (partPath P (filepathBase T) i) = some (.file b)) ∧
    (∀ q, q ≠ T → q ≠ P →
      (∀ i, i < (chunksOf splitChunkSize.toNat art).length →
        q ≠ partPath P (filepathBase T) i) →
      (splitIfNeeded T P size w).2.fs.get q = w.fs.get q) := by
  have hTP : T ≠ P := ne_of_length_lt hlen
  have hna : ∀ k, partPath P (filepathBase T) k ≠ T :=
    partPath_ne_of_not_under (isUnder_false_of_length_le (by omega))
  have hnp : ∀ k, partPath P (filepathBase T) k ≠ P :=
    partPath_ne_of_not_under (isUnder_false_of_length_le (le_refl _))
  unfold splitIfNeeded at hok ⊢
  simp only [hbig, if_true] at hok ⊢
  cases hm : osMkdirAll P w with
  | mk c w1 =>
    rw [hm] at hok
    cases c with
    | false => simp at hok
    | true =>
      obtain ⟨htr1, _, hP1, hfr1, _, _⟩ := osMkdirAll_true hm
      simp only at hok ⊢
      have hin1 : w1.fs.get T = some (.file art) := by rw [hfr1 T hTP]; exact hin
      cases hs : splitFile T P (filepathBase T) splitChunkSize w1 with
      | mk o w2 =>
        rw [hs] at hok
        have hs1 : (splitFile T P (filepathBase T) splitChunkSize w1).1 = o := by rw [hs]
        have hs2 : (splitFile T P (filepathBase T) splitChunkSize w1).2 = w2 := by rw [hs]
        cases o with
        | error msg => simp at hok
        | panic msg => simp at hok
        | outOfFuel => simp at hok
        | ok =>
          obtain ⟨⟨t, ht, hwr⟩, hframe, hcont⟩ :=
            splitFile_spec (by decide : (1 : Int) ≤ splitChunkSize) hin1 hna hs1
          rw [hs2] at ht hframe hcont
          simp only at hok ⊢
          cases hr : osRemove T w2 with
          | mk c2 w3 =>
            rw [hr] at hok
            cases c2 with
            | false => simp at hok
            | true =>
              obtain ⟨htr3, _, hfs3⟩ := osRemove_true hr
              simp only at hok ⊢
              cases hf : w3.nextFault with
              | mk b w4 =>
                rw [hf] at hok
                have hw4 : w4.fs = w3.fs ∧ w4.trace = w3.trace := by
                  simp only [World.nextFault, Prod.mk.injEq] at hf
                  rw [← hf.2]; simp
                cases b with
                | true => simp at hok
                | false =>
                  simp only at hok ⊢
                  by_cases hd : dirExists w4.fs P = true
                  · simp only [hd, if_true]
                    have hget4 : ∀ q, q ≠ T → w4.fs.get q = w2.fs.get q := by
                      intro q hq
                      rw [hw4.1, hfs3, FS.get_erase]; simp [hq]
                    refine ⟨⟨t, ?_, hwr⟩, ?_, ?_, ?_, ?_⟩
                    · rw [hw4.2, htr3, ht, htr1]; simp
                    · rw [hw4.1, hfs3, FS.get_erase]; simp
                    · rw [hget4 P (Ne.symm hTP), hframe P (fun i _ => (hnp i).symm)]
                      exact hP1
                    · intro i b hi
                      rw [hget4 _ (hna i)]
                      exact hcont i b hi
                    · intro q hqT hqP hq
                      rw [hget4 q hqT, hframe q hq, hfr1 q hqP]
                  · simp [hd] at hok

theorem compressAndSplit_ok {env : Env} {absPath : String} {w : World} {src : List Byte}
    (hsrc : w.fs.get absPath = some (.file src))
    (hok : (compressAndSplit env absPath w).1 = .ok) :
    ∃ w1, w1.trace = w.trace ++ [.created (absPath ++ ".bz2"),
          .wrote (absPath ++ ".bz2") (env.codec src)] ∧
      w1.fs.get (absPath ++ ".bz2") = some (.file (env.codec src)) ∧
      (∀ q, q ≠ absPath ++ ".bz2" → w1.fs.get q = w.fs.get q) ∧
      compressAndSplit env absPath w
        = splitIfNeeded (absPath ++ ".bz2") (absPath ++ ".bz2" ++ ".parts")
            ((env.codec src).length : Int) w1 := by
  have hne : absPath ≠ absPath ++ ".bz2" := by
    apply ne_of_length_lt
    rw [String.length_append]
    have : (".bz2" : String).length = 4 := by decide
    omega
  unfold compressAndSplit at hok ⊢
  simp only at hok ⊢
  cases hc : compressFile env.codec absPath (absPath ++ ".bz2") w with
  | mk o w1 =>
    rw [hc] at hok
    have hc1 : (compressFile env.codec absPath (absPath ++ ".bz2") w).1 = o := by rw [hc]
    have hc2 : (compressFile env.codec absPath (absPath ++ ".bz2") w).2 = w1 := by rw [hc]
    cases o with
    | error msg => simp at hok
    | panic msg => simp at hok
    | outOfFuel => simp at hok
    | ok =>
      obtain ⟨htr, hT, hfr⟩ := compressFile_ok hne hsrc hc1
      rw [hc2] at htr hT hfr
      refine ⟨w1, htr, hT, hfr, ?_⟩
      simp only [hT, Node.size]

/-! ## Runs without faults succeed -/

theorem nextFault_nil {w : World} (h : w.faults = []) : w.nextFault = (false, w) := by
  obtain ⟨fs, faults, trace⟩ := w
  simp only at h
  subst h
  rfl

theorem osOpen_nil {p : String} {w : World} (h : w.faults = []) (hp : (w.fs.get p).isSome) :
    osOpen p w = (true, w) := by
  unfold osOpen
  rw [nextFault_nil h]
  cases hg : w.fs.get p with
  | none => rw [hg] at hp; simp at hp
  | some n => simp [hg]

theorem osCreate_nil {p : String} {w : World} (h : w.faults = [])
    (hp : w.fs.get p ≠ some .dir) :
    ∃ w', osCreate p w = (true, w') ∧ w'.faults = [] := by
  unfold osCreate
  rw [nextFault_nil h]
  cases hg : w.fs.get p with
  | none =>
    exact ⟨{ w with fs := w.fs.set p (.file []) }.log (.created p), by simp,
      by simp [World.log, h]⟩
  | some n =>
    cases n with
    | dir => exact absurd hg hp
    | file d =>
      exact ⟨{ w with fs := w.fs.set p (.file []) }.log (.created p), by simp,
        by simp [World.log, h]⟩

theorem fileWrite_nil {p : String} (data : List Byte) {old : List Byte} {w : World}
    (h : w.faults = [])
    (hp : w.fs.get p = some (.file old)) :
    ∃ w', fileWrite p data w = (true, w') ∧ w'.faults = [] := by
  unfold fileWrite
  rw [nextFault_nil h]
  simp only [Bool.false_eq_true, if_false, hp]
  exact ⟨_, rfl, by simp [World.log, h]⟩

theorem readFull_nil {p : String} {o C : Nat} {data : List Byte} {w : World}
    (h : w.faults = []) (hp : w.fs.get p = some (.file data)) :
    ∃ err, readFull p o C w = (some ((data.drop o).take C, err), w) := by
  unfold readFull
  by_cases h0 : C = 0
  · subst h0
    exact ⟨.none, by simp⟩
  · rw [nextFault_nil h]
    simp only [h0, Bool.false_eq_true, if_false, hp]
    split
    · exact ⟨_, rfl⟩
    · split
      · exact ⟨_, rfl⟩
      · exact ⟨_, rfl⟩

theorem splitLoop_succeeds (inP outD base : String) (C : Nat) (data : List Byte)
    (hna : ∀ i, partPath outD base i ≠ inP) :
    ∀ (fuel o k : Nat) (w : World), w.faults = [] → w.fs.get inP = some (.file data) →
      (∀ i, k ≤ i → w.fs.get (partPath outD base i) ≠ some .dir) →
      data.length - o < fuel →
      (splitLoop inP outD base C fuel o k w).1 = .ok := by
  intro fuel
  induction fuel with
  | zero => intro o k w _ _ _ h; omega
  | succ fuel ih =>
    intro o k w hf hin hfree hsz
    obtain ⟨err, hr⟩ := readFull_nil (o := o) (C := C) hf hin
    obtain ⟨_, _, herr, _⟩ := readFull_facts hr
    unfold splitLoop
    rw [hr]
    simp only
    by_cases hb : ((data.drop o).take C).length = 0
    · simp [hb]
    · simp only [hb, if_false]
      obtain ⟨w2, hc, hf2⟩ := osCreate_nil hf (hfree k (le_refl k))
      obtain ⟨hfs2, _, _⟩ := osCreate_true hc
      rw [hc]
      simp only
      have hg2 : w2.fs.get (partPath outD base k) = some (.file []) := by
        rw [hfs2, FS.get_set_self]
      obtain ⟨w3, hw, hf3⟩ := fileWrite_nil ((data.drop o).take C) hf2 hg2
      obtain ⟨_, _, hfs3, _, _⟩ := fileWrite_true hw
      rw [hw]
      simp only
      by_cases he : err = .eof ∨ err = .unexpectedEOF
      · simp [he]
      · simp only [he, if_false]
        have hnone : err = .none := by
          cases err with
          | none => rfl
          | eof => exact absurd (Or.inl rfl) he
          | unexpectedEOF => exact absurd (Or.inr rfl) he
        have hfull := herr.1 hnone
        have hlen : ((data.drop o).take C).length = min C (data.length - o) := by
          simp [List.length_take, List.length_drop]
        have hget3 : ∀ q, q ≠ partPath outD base k → w3.fs.get q = w.fs.get q := by
          intro q hq
          rw [hfs3, FS.get_set_ne _ _ hq, hfs2, FS.get_set_ne _ _ hq]
        apply ih _ _ _ hf3
        · rw [hget3 inP (fun e => hna k e.symm)]; exact hin
        · intro i hi
          rw [hget3 _ (fun e => by have := partPath_injective outD base e; omega)]
          exact hfree i (by omega)
        · omega

theorem splitFile_succeeds {inP outD base : String} {C : Int} {data : List Byte} {w : World}
    (hC : 0 ≤ C) (hf : w.faults = []) (hin : w.fs.get inP = some (.file data))
    (hna : ∀ i, partPath outD base i ≠ inP)
    (hfree : ∀ i, w.fs.get (partPath outD base i) ≠ some .dir) :
    (splitFile inP outD base C w).1 = .ok := by
  unfold splitFile
  rw [osOpen_nil hf (by simp [hin])]
  simp only [show ¬ C < 0 by omega, if_false]
  apply splitLoop_succeeds inP outD base _ data hna _ _ _ _ hf hin (fun i _ => hfree i)
  simp [FS.sizeAt, hin, Node.size]

theorem splitLoop_faults_nil (inP outD base : String) (C : Nat) :
    ∀ (fuel o k : Nat) (w : World), w.faults = [] →
      (splitLoop inP outD base C fuel o k w).2.faults = [] := by
  intro fuel
  induction fuel with
  | zero => intro o k w h; simpa [splitLoop] using h
  | succ fuel ih =>
    intro o k w hf
    unfold splitLoop
    cases hr : readFull inP o C w with
    | mk r w1 =>
      have h1 : w1.faults = [] := by
        have : w1 = (readFull inP o C w).2 := by rw [hr]
        rw [this]
        unfold readFull
        split
        · exact hf
        · rw [nextFault_nil hf]
          simp only [Bool.false_eq_true, if_false]
          split
          · split
            · exact hf
            · split <;> exact hf
          · exact hf
      cases r with
      | none => simpa using h1
      | some be =>
        obtain ⟨buf, err⟩ := be
        simp only
        by_cases hb : buf.length = 0
        · simpa [hb] using h1
        · simp only [hb, if_false]
          cases hc : osCreate (partPath outD base k) w1 with
          | mk c w2 =>
            have h2 : w2.faults = [] := by
              have : w2 = (osCreate (partPath outD base k) w1).2 := by rw [hc]
              rw [this]
              unfold osCreate
              rw [nextFault_nil h1]
              simp only [Bool.false_eq_true, if_false]
              split <;> simpa [World.log] using h1
            cases c with
            | false => simpa using h2
            | true =>
              simp only
              cases hw : fileWrite (partPath outD base k) buf w2 with
              | mk c2 w3 =>
                have h3 : w3.faults = [] := by
                  have : w3 = (fileWrite (partPath outD base k) buf w2).2 := by rw [hw]
                  rw [this]
                  unfold fileWrite
                  rw [nextFault_nil h2]
                  simp only [Bool.false_eq_true, if_false]
                  split <;> simpa [World.log] using h2
                cases c2 with
                | false => simpa using h3
                | true =>
                  simp only
                  by_cases he : err = .eof ∨ err = .unexpectedEOF
                  · simpa [he] using h3
                  · simp only [he, if_false]
                    exact ih _ _ _ h3

theorem splitFile_faults_nil (inP outD base : String) (C : Int) {w : World}
    (hf : w.faults = []) : (splitFile inP outD base C w).2.faults = [] := by
  unfold splitFile
  cases ho : osOpen inP w with
  | mk c w1 =>
    have h1 : w1.faults = [] := by
      have : w1 = (osOpen inP w).2 := by rw [ho]
      rw [this]
      unfold osOpen
      rw [nextFault_nil hf]
      simp only [Bool.false_eq_true, if_false]
      split <;> exact hf
    cases c with
    | false => simpa using h1
    | true =>
      simp only
      by_cases hneg : C < 0
      · simpa [hneg] using h1
      · simp only [hneg, if_false]
        exact splitLoop_faults_nil _ _ _ _ _ _ _ _ h1

theorem compressAndSplit_succeeds {env : Env} {absPath : String} {w : World} {src : List Byte}
    (hf : w.faults = []) (hsrc : w.fs.get absPath = some (.file src))
    (hT : w.fs.get (absPath ++ ".bz2") = none)
    (hP : w.fs.get (absPath ++ ".bz2" ++ ".parts") = none)
    (hclean : w.fs.hasChildren (absPath ++ ".bz2" ++ ".parts") = false) :
    (compressAndSplit env absPath w).1 = .ok := by
  have hl4 : (".bz2" : String).length = 4 := by decide
  have hl6 : (".parts" : String).length = 6 := by decide
  have hne : absPath ≠ absPath ++ ".bz2" :=
    ne_of_length_lt (by rw [String.length_append]; omega)
  have hlen : (absPath ++ ".bz2").length < (absPath ++ ".bz2" ++ ".parts").length := by
    rw [String.length_append (absPath ++ ".bz2")]; omega
  have hTP : absPath ++ ".bz2" ≠ absPath ++ ".bz2" ++ ".parts" := ne_of_length_lt hlen
  have hna : ∀ k, partPath (absPath ++ ".bz2" ++ ".parts") (filepathBase (absPath ++ ".bz2")) k
      ≠ absPath ++ ".bz2" :=
    partPath_ne_of_not_under (isUnder_false_of_length_le (by omega))
  have hnp : ∀ k, partPath (absPath ++ ".bz2" ++ ".parts") (filepathBase (absPath ++ ".bz2")) k
      ≠ absPath ++ ".bz2" ++ ".parts" :=
    partPath_ne_of_not_under (isUnder_false_of_length_le (le_refl _))
  -- compression
  have hcomp : ∃ w3, compressFile env.codec absPath (absPath ++ ".bz2") w = (.ok, w3) ∧
      w3.faults = [] := by
    unfold compressFile
    rw [osOpen_nil hf (by simp [hsrc])]
    obtain ⟨w2, hc, hf2⟩ := osCreate_nil (p := absPath ++ ".bz2") hf (by simp [hT])
    obtain ⟨hfs2, _, _⟩ := osCreate_true hc
    simp only
    rw [hc]
    simp only
    rw [nextFault_nil hf2]
    simp only
    have hin2 : w2.fs.get absPath = some (.file src) := by
      rw [hfs2, FS.get_set_ne _ _ hne]; exact hsrc
    rw [hin2]
    simp only
    obtain ⟨w3, hw, hf3⟩ := fileWrite_nil (env.codec src) hf2
      (show w2.fs.get (absPath ++ ".bz2") = some (.file []) by rw [hfs2, FS.get_set_self])
    rw [hw]
    exact ⟨w3, rfl, hf3⟩
  obtain ⟨w3, hc3, hf3⟩ := hcomp
  have hc1 : (compressFile env.codec absPath (absPath ++ ".bz2") w).1 = .ok := by rw [hc3]
  obtain ⟨_, hT3, hfr3⟩ := compressFile_ok hne hsrc hc1
  rw [hc3] at hT3 hfr3
  simp only at hT3 hfr3
  unfold compressAndSplit
  simp only [hc3, hT3, Node.size]
  -- the split
  unfold splitIfNeeded
  by_cases hbig : needsSplit ((env.codec src).length : Int) splitThresholdBytes = true
  · simp only [hbig, if_true]
    have hP3 : w3.fs.get (absPath ++ ".bz2" ++ ".parts") = none := by
      rw [hfr3 _ (Ne.symm hTP)]; exact hP
    have hmk : ∃ w4, osMkdirAll (absPath ++ ".bz2" ++ ".parts") w3 = (true, w4) ∧
        w4.faults = [] := by
      unfold osMkdirAll
      rw [nextFault_nil hf3]
      simp only [Bool.false_eq_true, if_false, hP3]
      exact ⟨_, rfl, by simp [World.log, hf3]⟩
    obtain ⟨w4, hm, hf4⟩ := hmk
    obtain ⟨_, _, hP4, hfr4, _, _⟩ := osMkdirAll_true hm
    rw [hm]
    simp only
    have hT4 : w4.fs.get (absPath ++ ".bz2") = some (.file (env.codec src)) := by
      rw [hfr4 _ hTP]; exact hT3
    have hfree : ∀ i, w4.fs.get (partPath (absPath ++ ".bz2" ++ ".parts")
        (filepathBase (absPath ++ ".bz2")) i) ≠ some .dir := by
      intro i
      rw [hfr4 _ (hnp i), hfr3 _ (hna i),
        FS.get_none_of_noChildren _ _ _ hclean (isUnder_partPath _ _ _)]
      simp
    have hs1 := splitFile_succeeds (C := splitChunkSize) (by decide) hf4 hT4 hna hfree
    obtain ⟨_, hframe, _⟩ :=
      splitFile_spec (by decide : (1 : Int) ≤ splitChunkSize) hT4 hna hs1
    have hf5 := splitFile_faults_nil (absPath ++ ".bz2") (absPath ++ ".bz2" ++ ".parts")
      (filepathBase (absPath ++ ".bz2")) splitChunkSize hf4
    cases hs : splitFile (absPath ++ ".bz2") (absPath ++ ".bz2" ++ ".parts")
        (filepathBase (absPath ++ ".bz2")) splitChunkSize w4 with
    | mk o w5 =>
      rw [hs] at hs1 hframe hf5
      simp only at hs1 hframe hf5
      subst hs1
      simp only
      have hT5 : w5.fs.get (absPath ++ ".bz2") = some (.file (env.codec src)) := by
        rw [hframe _ (fun i _ => (hna i).symm)]; exact hT4
      have hP5 : w5.fs.get (absPath ++ ".bz2" ++ ".parts") = some .dir := by
        rw [hframe _ (fun i _ => (hnp i).symm)]; exact hP4
      unfold osRemove
      rw [nextFault_nil hf5]
      simp only [Bool.false_eq_true, if_false, hT5]
      have hf6 : (({ w5 with fs := w5.fs.erase (absPath ++ ".bz2") } : World).log
          (.removed (absPath ++ ".bz2"))).faults = [] := by simp [World.log, hf5]
      rw [nextFault_nil hf6]
      simp only
      have hd : dirExists (({ w5 with fs := w5.fs.erase (absPath ++ ".bz2") } : World).log
          (.removed (absPath ++ ".bz2"))).fs (absPath ++ ".bz2" ++ ".parts") = true := by
        simp only [dirExists, World.log, FS.get_erase, Ne.symm hTP, if_false, hP5]
        simp
      simp [hd]
  · simp [hbig]

/-! ## The run as a whole -/

theorem lookupPath_filter_keep (l : List (String × Node)) (f : String × Node → Bool) (q : String)
    (hq : ∀ n, f (q, n) = true) :
    lookupPath (l.filter f) q = lookupPath l q := by
  induction l with
  | nil => simp [lookupPath]
  | cons e l ih =>
    obtain ⟨k, n⟩ := e
    by_cases hk : k = q
    · subst hk
      simp [List.filter, hq n, lookupPath]
    · cases hf : f (k, n) with
      | true => simp [List.filter, hf, lookupPath, hk, ih]
      | false => simp [List.filter, hf, lookupPath, hk, ih]

theorem FS.get_eraseTree (fs : FS) (d q : String) (hq : q ≠ d) (hu : isUnder d q = false) :
    (fs.eraseTree d).get q = fs.get q := by
  unfold FS.get FS.eraseTree
  exact lookupPath_filter_keep _ _ _ (by intro n; simp [hq, hu])

theorem osRemove_frame (p : String) (w : World) :
    (∀ q, q ≠ p → (osRemove p w).2.fs.get q = w.fs.get q) ∧
    ∃ pre, (osRemove p w).2.trace = w.trace ++ pre ∧ written pre = [] := by
  unfold osRemove
  simp only [World.nextFault, World.log]
  split
  · exact ⟨fun q _ => rfl, _, rfl, rfl⟩
  · split
    · exact ⟨fun q _ => rfl, _, rfl, rfl⟩
    · exact ⟨fun q hq => by simp [FS.get_erase, hq], _, rfl, rfl⟩
    · split
      · exact ⟨fun q _ => rfl, _, rfl, rfl⟩
      · exact ⟨fun q hq => by simp [FS.get_erase, hq], _, rfl, rfl⟩

theorem osRemoveAll_frame (p : String) (w : World) :
    (∀ q, q ≠ p → isUnder p q = false → (osRemoveAll p w).2.fs.get q = w.fs.get q) ∧
    ∃ pre, (osRemoveAll p w).2.trace = w.trace ++ pre ∧ written pre = [] := by
  unfold osRemoveAll
  simp only [World.nextFault, World.log]
  split
  · exact ⟨fun q _ _ => rfl, _, rfl, rfl⟩
  · exact ⟨fun q hq hu => by simp [FS.get_eraseTree _ _ _ hq hu], _, rfl, rfl⟩

/-- When the run is not cancelled, it is `compressAndSplit` from a world that differs from
the initial one at most in the old output. -/
theorem pipeline_proceeds {env : Env} (absPath : String) {w : World}
    (hp : (fileExists w.fs (absPath ++ ".bz2")
        || dirExists w.fs (absPath ++ ".bz2" ++ ".parts")) = false ∨ confirmed env = true) :
    ∃ w0, pipeline env absPath w = compressAndSplit env absPath w0 ∧
      (∀ q, q ≠ absPath ++ ".bz2" → q ≠ absPath ++ ".bz2" ++ ".parts" →
        isUnder (absPath ++ ".bz2" ++ ".parts") q = false → w0.fs.get q = w.fs.get q) ∧
      (∃ pre, w0.trace = w.trace ++ pre ∧ written pre = []) ∧
      ((fileExists w.fs (absPath ++ ".bz2")
        || dirExists w.fs (absPath ++ ".bz2" ++ ".parts")) = false → w0 = w) := by
  by_cases hprior : (fileExists w.fs (absPath ++ ".bz2")
      || dirExists w.fs (absPath ++ ".bz2" ++ ".parts")) = false
  · refine ⟨w, ?_, fun _ _ _ _ => rfl, ⟨[], by simp, rfl⟩, fun _ => rfl⟩
    unfold pipeline
    simp only [hprior, Bool.false_eq_true, if_false]
  · have hc : confirmed env = true := by
      rcases hp with h | h
      · exact absurd h hprior
      · exact h
    have hprior' : (fileExists w.fs (absPath ++ ".bz2")
      || dirExists w.fs (absPath ++ ".bz2" ++ ".parts")) = true := by
      cases h : (fileExists w.fs (absPath ++ ".bz2")
        || dirExists w.fs (absPath ++ ".bz2" ++ ".parts")) with
      | true => rfl
      | false => exact absurd h hprior
    obtain ⟨hfr1, pre1, htr1, hwr1⟩ := osRemove_frame (absPath ++ ".bz2") w
    obtain ⟨hfr2, pre2, htr2, hwr2⟩ :=
      osRemoveAll_frame (absPath ++ ".bz2" ++ ".parts") (osRemove (absPath ++ ".bz2") w).2
    refine ⟨(osRemoveAll (absPath ++ ".bz2" ++ ".parts") (osRemove (absPath ++ ".bz2") w).2).2,
      ?_, ?_, ⟨pre1 ++ pre2, ?_, ?_⟩, fun h => absurd h hprior⟩
    · unfold pipeline
      simp only [hprior', hc, if_true, Bool.not_true, Bool.false_eq_true, if_false]
    · intro q hqT hqP hu
      rw [hfr2 q hqP hu, hfr1 q hqT]
    · rw [htr2, htr1]; simp
    · rw [written_append, hwr1, hwr2]; simp

theorem absPath_frame (absPath : String) :
    absPath ≠ absPath ++ ".bz2" ∧ absPath ≠ absPath ++ ".bz2" ++ ".parts" ∧
    isUnder (absPath ++ ".bz2" ++ ".parts") absPath = false ∧
    (absPath ++ ".bz2").length < (absPath ++ ".bz2" ++ ".parts").length := by
  have hl4 : (".bz2" : String).length = 4 := by decide
  have hl6 : (".parts" : String).length = 6 := by decide
  have h1 : (absPath ++ ".bz2").length = absPath.length + 4 := by
    rw [String.length_append]; omega
  have h2 : (absPath ++ ".bz2" ++ ".parts").length = absPath.length + 10 := by
    rw [String.length_append (absPath ++ ".bz2")]; omega
  exact ⟨ne_of_length_lt (by omega), ne_of_length_lt (by omega),
    isUnder_false_of_length_le (by omega), by omega⟩

theorem run_eq_pipeline {env : Env} {w : World} {absPath : String}
    (hv : validate env w = .ok absPath) : run env w = pipeline env absPath w := by
  simp [run, hv]

/-- The final state of a run that was not cancelled and returned nil. -/
theorem run_state {env : Env} {w : World} {absPath : String} {src : List Byte}
    (hv : validate env w = .ok absPath) (hsrc : w.fs.get absPath = some (.file src))
    (hp : (fileExists w.fs (absPath ++ ".bz2")
        || dirExists w.fs (absPath ++ ".bz2" ++ ".parts")) = false ∨ confirmed env = true)
    (hok : (run env w).1 = .ok) :
    ∃ w0, (∀ q, q ≠ absPath ++ ".bz2" → q ≠ absPath ++ ".bz2" ++ ".parts" →
        isUnder (absPath ++ ".bz2" ++ ".parts") q = false → w0.fs.get q = w.fs.get q) ∧
      ((fileExists w.fs (absPath ++ ".bz2")
        || dirExists w.fs (absPath ++ ".bz2" ++ ".parts")) = false → w0 = w) ∧
      (needsSplit ((env.codec src).length : Int) splitThresholdBytes = false →
        (run env w).2.fs.get (absPath ++ ".bz2") = some (.file (env.codec src)) ∧
        (∀ q, q ≠ absPath ++ ".bz2" → (run env w).2.fs.get q = w0.fs.get q) ∧
        partsWritten w (run env w).2 = [(absPath ++ ".bz2", env.codec src)]) ∧
      (needsSplit ((env.codec src).length : Int) splitThresholdBytes = true →
        (run env w).2.fs.get (absPath ++ ".bz2") = none ∧
        (run env w).2.fs.get (absPath ++ ".bz2" ++ ".parts") = some .dir ∧
        partsWritten w (run env w).2 = (absPath ++ ".bz2", env.codec src) ::
          numbered (absPath ++ ".bz2" ++ ".parts") (filepathBase (absPath ++ ".bz2")) 0
            (chunksOf splitChunkSize.toNat (env.codec src)) ∧
        (∀ i b, (chunksOf splitChunkSize.toNat (env.codec src))[i]? = some b →
          (run env w).2.fs.get (partPath (absPath ++ ".bz2" ++ ".parts")
            (filepathBase (absPath ++ ".bz2")) i) = some (.file b)) ∧
        (∀ q, q ≠ absPath ++ ".bz2" → q ≠ absPath ++ ".bz2" ++ ".parts" →
          (∀ i, i < (chunksOf splitChunkSize.toNat (env.codec src)).length →
            q ≠ partPath (absPath ++ ".bz2" ++ ".parts") (filepathBase (absPath ++ ".bz2")) i) →
          (run env w).2.fs.get q = w0.fs.get q)) := by
  obtain ⟨hA1, hA2, hA3, hA4⟩ := absPath_frame absPath
  obtain ⟨w0, hpipe, hfr0, ⟨pre, htr0, hwr0⟩, hfresh⟩ := pipeline_proceeds absPath hp
  rw [run_eq_pipeline hv, hpipe] at hok ⊢
  have hsrc0 : w0.fs.get absPath = some (.file src) := by
    rw [hfr0 absPath hA1 hA2 hA3]; exact hsrc
  obtain ⟨w1, htr1, hT1, hfr1, hcs⟩ := compressAndSplit_ok hsrc0 hok
  rw [hcs] at hok ⊢
  refine ⟨w0, hfr0, hfresh, ?_, ?_⟩
  · intro hsmall
    rw [splitIfNeeded_small hsmall]
    refine ⟨hT1, hfr1, ?_⟩
    rw [partsWritten_of_trace (t := pre ++ [.created (absPath ++ ".bz2"),
      .wrote (absPath ++ ".bz2") (env.codec src)]) (by rw [htr1, htr0]; simp)]
    rw [written_append, hwr0]
    simp [written]
  · intro hbig
    obtain ⟨⟨t, ht, hwr⟩, hT, hP, hcont, hframe⟩ := splitIfNeeded_split hbig hT1 hA4 hok
    refine ⟨hT, hP, ?_, hcont, ?_⟩
    · rw [partsWritten_of_trace (t := pre ++ [.created (absPath ++ ".bz2"),
        .wrote (absPath ++ ".bz2") (env.codec src)]
          ++ (.madeDir (absPath ++ ".bz2" ++ ".parts") :: t) ++ [.removed (absPath ++ ".bz2")])
        (by rw [ht, htr1, htr0]; simp)]
      simp only [written_append, hwr0, hwr, written, List.nil_append, List.append_nil,
        List.cons_append]
    · intro q hqT hqP hq
      rw [hframe q hqT hqP hq, hfr1 q hqT]

theorem run_succeeds (env : Env) (w : World) (absPath : String) (src : List Byte)
    (hv : validate env w = .ok absPath) (hf : w.faults = [])
    (hsrc : w.fs.get absPath = some (.file src))
    (hT : w.fs.get (absPath ++ ".bz2") = none)
    (hP : w.fs.get (absPath ++ ".bz2" ++ ".parts") = none)
    (hclean : w.fs.hasChildren (absPath ++ ".bz2" ++ ".parts") = false) :
    (run env w).1 = .ok := by
  rw [run_eq_pipeline hv]
  unfold pipeline
  have hnof : fileExists w.fs (absPath ++ ".bz2") = false := by simp [fileExists, hT]
  have hnod : dirExists w.fs (absPath ++ ".bz2" ++ ".parts") = false := by simp [dirExists, hP]
  simp only [hnof, hnod, Bool.or_self, Bool.false_eq_true, if_false]
  exact compressAndSplit_succeeds hf hsrc hT hP hclean

theorem needsSplit_iff (a b : Int) : needsSplit a b = true ↔ b < a := by
  simp [needsSplit]

theorem needsSplit_false_iff (a b : Int) : needsSplit a b = false ↔ a ≤ b := by
  simp [needsSplit]

theorem getElem?_numbered (outD base : String) : ∀ (bufs : List (List Byte)) (k i : Nat)
    (b : List Byte), bufs[i]? = some b →
      (partPath outD base (k + i), b) ∈ numbered outD base k bufs := by
  intro bufs
  induction bufs with
  | nil => intro k i b h; simp at h
  | cons c cs ih =>
    intro k i b h
    cases i with
    | zero =>
      simp only [List.getElem?_cons_zero, Option.some.injEq] at h
      subst h
      simp [numbered]
    | succ i =>
      simp only [List.getElem?_cons_succ] at h
      have := ih (k + 1) i b h
      rw [show k + 1 + i = k + (i + 1) by omega] at this
      simp only [numbered, List.mem_cons]
      exact Or.inr this

/-! ## The claims about the run -/

/-- Claim C6: when the argument checks pass, prior output exists (the compressed file
exists and is not a directory, or the parts directory exists) and the answer is not `y` or
`yes`, `run` returns nil and leaves the world as it was: no file is removed, created or
written, no system call that could fail is made, and the trace gains no event. -/
theorem run_cancelled (env : Env) (w : World) (absPath : String)
    (hv : validate env w = .ok absPath)
    (hprior : fileExists w.fs (absPath ++ ".bz2") = true ∨
      dirExists w.fs (absPath ++ ".bz2" ++ ".parts") = true)
    (hno : confirmed env = false) :
    run env w = (.ok, w) := by
  rw [run_eq_pipeline hv]
  unfold pipeline
  have : (fileExists w.fs (absPath ++ ".bz2")
      || dirExists w.fs (absPath ++ ".bz2" ++ ".parts")) = true := by
    rcases hprior with h | h <;> simp [h]
  simp [this, hno]

theorem run_cancelled_witness :
    (validate (mapEnv "n\n" id) (priorWorld []) = .ok "/maps/a.bsp" ∧
      (fileExists (priorWorld []).fs ("/maps/a.bsp" ++ ".bz2") = true ∨
        dirExists (priorWorld []).fs ("/maps/a.bsp" ++ ".bz2" ++ ".parts") = true) ∧
      confirmed (mapEnv "n\n" id) = false) ∧
    run (mapEnv "n\n" id) (priorWorld []) = (.ok, priorWorld []) :=
  ⟨⟨by decide, Or.inl (by decide), by decide⟩,
    run_cancelled (mapEnv "n\n" id) (priorWorld []) "/maps/a.bsp" (by decide)
      (Or.inl (by decide)) (by decide)⟩

/-- Claim C7: for a run whose argument checks pass, whose source is a regular file, that
starts with no prior output (no compressed file, no parts directory and nothing inside
one) and that returns nil, so that every operation succeeded: the source file is unchanged;
when the compressed size exceeds the threshold, the compressed file is gone, the parts
directory exists, the run wrote the compressed file and then parts 0, 1, ... whose bytes
concatenate to the compressed stream, and the files inside the parts directory are exactly
those parts with those bytes; otherwise the compressed file holds the compressed stream,
no parts directory exists, nothing lies inside one and no part was written. -/
theorem run_final_state (env : Env) (w : World) (absPath : String) (src : List Byte)
    (hv : validate env w = .ok absPath) (hsrc : w.fs.get absPath = some (.file src))
    (hnof : fileExists w.fs (absPath ++ ".bz2") = false)
    (hnod : dirExists w.fs (absPath ++ ".bz2" ++ ".parts") = false)
    (hclean : w.fs.hasChildren (absPath ++ ".bz2" ++ ".parts") = false)
    (hok : (run env w).1 = .ok) :
    (run env w).2.fs.get absPath = some (.file src) ∧
    (splitThresholdBytes < ((env.codec src).length : Int) →
      (run env w).2.fs.get (absPath ++ ".bz2") = none ∧
      (run env w).2.fs.get (absPath ++ ".bz2" ++ ".parts") = some .dir ∧
      ∃ parts, partsWritten w (run env w).2 = (absPath ++ ".bz2", env.codec src) :: parts ∧
        parts.map Prod.fst = (List.range parts.length).map
          (partPath (absPath ++ ".bz2" ++ ".parts") (filepathBase (absPath ++ ".bz2"))) ∧
        (parts.map Prod.snd).flatten = env.codec src ∧
        ∀ p n, isUnder (absPath ++ ".bz2" ++ ".parts") p = true →
          ((run env w).2.fs.get p = some n ↔ ∃ e ∈ parts, e.1 = p ∧ n = .file e.2)) ∧
    (((env.codec src).length : Int) ≤ splitThresholdBytes →
      (run env w).2.fs.get (absPath ++ ".bz2") = some (.file (env.codec src)) ∧
      dirExists (run env w).2.fs (absPath ++ ".bz2" ++ ".parts") = false ∧
      (∀ p, isUnder (absPath ++ ".bz2" ++ ".parts") p = true →
        (run env w).2.fs.get p = none) ∧
      partsWritten w (run env w).2 = [(absPath ++ ".bz2", env.codec src)]) := by
  obtain ⟨hA1, hA2, hA3, hA4⟩ := absPath_frame absPath
  have hfresh : (fileExists w.fs (absPath ++ ".bz2")
      || dirExists w.fs (absPath ++ ".bz2" ++ ".parts")) = false := by simp [hnof, hnod]
  obtain ⟨w0, _, hw0, hsmall, hbig⟩ := run_state hv hsrc (Or.inl hfresh) hok
  have e0 : w0 = w := hw0 hfresh
  subst e0
  have hunder : ∀ p, isUnder (absPath ++ ".bz2" ++ ".parts") p = true →
      p ≠ absPath ++ ".bz2" ∧ p ≠ absPath ++ ".bz2" ++ ".parts" ∧ w0.fs.get p = none := by
    intro p hp
    have := isUnder_length hp
    exact ⟨(ne_of_length_lt (by omega)).symm, (ne_of_length_lt (by omega)).symm,
      FS.get_none_of_noChildren _ _ _ hclean hp⟩
  refine ⟨?_, ?_, ?_⟩
  · by_cases hb : needsSplit ((env.codec src).length : Int) splitThresholdBytes = true
    · obtain ⟨_, _, _, _, hframe⟩ := hbig hb
      rw [hframe absPath hA1 hA2 (fun i _ =>
        (partPath_ne_of_not_under hA3 i).symm)]
      exact hsrc
    · have hb' : needsSplit ((env.codec src).length : Int) splitThresholdBytes = false := by
        simpa using hb
      obtain ⟨_, hframe, _⟩ := hsmall hb'
      rw [hframe absPath hA1]; exact hsrc
  · intro hlt
    obtain ⟨hT, hP, hparts, hcont, hframe⟩ := hbig ((needsSplit_iff _ _).2 hlt)
    refine ⟨hT, hP, _, hparts, ?_, ?_, ?_⟩
    · rw [map_fst_numbered, length_numbered]; simp
    · rw [map_snd_numbered]
      exact join_chunksOf _ (by decide) _ _ rfl
    · intro p n hp
      obtain ⟨hpT, hpP, hnone⟩ := hunder p hp
      constructor
      · intro hget
        by_cases hex : ∃ i, i < (chunksOf splitChunkSize.toNat (env.codec src)).length ∧
            p = partPath (absPath ++ ".bz2" ++ ".parts") (filepathBase (absPath ++ ".bz2")) i
        · obtain ⟨i, hi, hpi⟩ := hex
          have hb : (chunksOf splitChunkSize.toNat (env.codec src))[i]?
              = some ((chunksOf splitChunkSize.toNat (env.codec src))[i]) :=
            List.getElem?_eq_getElem hi
          have := hcont i _ hb
          rw [← hpi, hget] at this
          refine ⟨(p, (chunksOf splitChunkSize.toNat (env.codec src))[i]), ?_, rfl,
            Option.some.inj this⟩
          have hm := getElem?_numbered (absPath ++ ".bz2" ++ ".parts")
            (filepathBase (absPath ++ ".bz2")) _ 0 i _ hb
          rw [Nat.zero_add, ← hpi] at hm
          exact hm
        · have := hframe p hpT hpP (fun i hi e => hex ⟨i, hi, e⟩)
          rw [this, hnone] at hget
          cases hget
      · rintro ⟨e, he, h1, h2⟩
        obtain ⟨i, hi1, hi2⟩ := mem_numbered _ _ _ _ _ he
        rw [Nat.zero_add] at hi2
        rw [← h1, hi2, h2]
        exact hcont i e.2 hi1
  · intro hle
    obtain ⟨hT, hframe, hparts⟩ := hsmall ((needsSplit_false_iff _ _).2 hle)
    refine ⟨hT, ?_, ?_, hparts⟩
    · simp only [dirExists] at hnod ⊢
      rw [hframe _ (ne_of_length_lt hA4).symm]
      exact hnod
    · intro p hp
      obtain ⟨hpT, _, hnone⟩ := hunder p hp
      rw [hframe p hpT]; exact hnone

theorem run_final_state_witness :
    (validate (mapEnv "" (fun _ => List.replicate 26214401 0)) freshWorld = .ok "/maps/a.bsp" ∧
      freshWorld.fs.get "/maps/a.bsp" = some (.file [1, 2, 3]) ∧
      fileExists freshWorld.fs ("/maps/a.bsp" ++ ".bz2") = false ∧
      dirExists freshWorld.fs ("/maps/a.bsp" ++ ".bz2" ++ ".parts") = false ∧
      freshWorld.fs.hasChildren ("/maps/a.bsp" ++ ".bz2" ++ ".parts") = false ∧
      (run (mapEnv "" (fun _ => List.replicate 26214401 0)) freshWorld).1 = .ok) ∧
    (run (mapEnv "" (fun _ => List.replicate 26214401 0)) freshWorld).2.fs.get "/maps/a.bsp"
      = some (.file [1, 2, 3]) ∧
    (run (mapEnv "" (fun _ => List.replicate 26214401 0)) freshWorld).2.fs.get
      ("/maps/a.bsp" ++ ".bz2") = none :=
  have hok : (run (mapEnv "" (fun _ => List.replicate 26214401 0)) freshWorld).1 = .ok :=
    run_succeeds (mapEnv "" (fun _ => List.replicate 26214401 0)) freshWorld "/maps/a.bsp" [1, 2, 3]
      (by decide) rfl (by decide)
      (by decide) (by decide) (by decide)
  have hthm := run_final_state (mapEnv "" (fun _ => List.replicate 26214401 0)) freshWorld
    "/maps/a.bsp" [1, 2, 3] (by decide) (by decide) (by decide) (by decide) (by decide) hok
  ⟨⟨by decide, by decide, by decide, by decide, by decide, hok⟩, hthm.1,
    (hthm.2.1 (by
      rw [show (mapEnv "" (fun _ => List.replicate 26214401 0)).codec [1, 2, 3]
        = List.replicate 26214401 0 from rfl, List.length_replicate]
      decide)).1⟩

/-- Claim C8 fails on the code: with prior output present, the overwrite confirmed and both
`os.Remove` and `os.RemoveAll` failing, `run` discards the two errors, goes on to compress
and returns nil; the old parts directory and its part are still there at the end, next to
the new compressed file. -/
theorem run_ignores_failed_removal :
    validate (mapEnv "y\n" (fun d => d ++ [0])) (priorWorld [true, true]) = .ok "/maps/a.bsp" ∧
    fileExists (priorWorld [true, true]).fs "/maps/a.bsp.bz2" = true ∧
    dirExists (priorWorld [true, true]).fs "/maps/a.bsp.bz2.parts" = true ∧
    confirmed (mapEnv "y\n" (fun d => d ++ [0])) = true ∧
    run (mapEnv "y\n" (fun d => d ++ [0])) (priorWorld [true, true]) =
      (.ok,
        ⟨⟨[("/maps/a.bsp.bz2", .file [1, 2, 3, 0]),
            ("/maps/a.bsp.bz2.parts/a.bsp.bz2.part.000", .file [7, 7]),
            ("/maps/a.bsp.bz2.parts", .dir),
            ("/maps/a.bsp", .file [1, 2, 3]), ("/maps", .dir)]⟩,
          [],
          [.failed "Remove" "/maps/a.bsp.bz2", .failed "RemoveAll" "/maps/a.bsp.bz2.parts",
            .created "/maps/a.bsp.bz2", .wrote "/maps/a.bsp.bz2" [1, 2, 3, 0]]⟩) := by
  decide

theorem osOpen_frame (p : String) (w : World) :
    (osOpen p w).2.fs = w.fs ∧ (osOpen p w).2.trace = w.trace := by
  unfold osOpen
  simp only [World.nextFault]
  split
  · exact ⟨rfl, rfl⟩
  · split <;> exact ⟨rfl, rfl⟩

/-- Claim C9 as stated fails: with chunk size 0 and an input of five bytes `splitFile`
returns nil, having written no part. -/
theorem splitFile_accepts_zero_chunk :
    plainWorld.fs.get "/d/in" = some (.file [1, 2, 3, 4, 5]) ∧
    (splitFile "/d/in" "/d/o" "x" 0 plainWorld).1 = .ok ∧
    partsWritten plainWorld (splitFile "/d/in" "/d/o" "x" 0 plainWorld).2 = [] := by
  decide

/-- Claim C9, amended: `splitFile` has no check of the chunk size and opens the input first.
For every chunk size of 0 or less and every input it leaves all files as they were and
writes no part; when the input cannot be opened it returns the open error; when it can,
a negative chunk size ends in the panic of `make` (never in success) and the chunk size 0
ends in success. -/
theorem splitFile_nonpositive_chunk (w : World) (inputPath outputDir baseName : String)
    (chunkSize : Int) (hC : chunkSize ≤ 0) :
    (splitFile inputPath outputDir baseName chunkSize w).2.fs = w.fs ∧
    partsWritten w (splitFile inputPath outputDir baseName chunkSize w).2 = [] ∧
    ((osOpen inputPath w).1 = false →
      (splitFile inputPath outputDir baseName chunkSize w).1
        = .error "failed to open input file") ∧
    ((osOpen inputPath w).1 = true → chunkSize < 0 →
      (splitFile inputPath outputDir baseName chunkSize w).1
        = .panic "makeslice: len out of range") ∧
    ((osOpen inputPath w).1 = true → chunkSize = 0 →
      (splitFile inputPath outputDir baseName chunkSize w).1 = .ok) := by
  obtain ⟨hfs, htr⟩ := osOpen_frame inputPath w
  unfold splitFile
  cases ho : osOpen inputPath w with
  | mk c w1 =>
    rw [ho] at hfs htr
    simp only at hfs htr
    have hpw : partsWritten w w1 = [] := by
      rw [partsWritten_of_trace (t := []) (by simp [htr])]; rfl
    cases c with
    | false => simp [hfs, hpw]
    | true =>
      by_cases hneg : chunkSize < 0
      · simp only [hneg, if_true]
        refine ⟨hfs, hpw, by simp, by simp, ?_⟩
        intro _ h0; omega
      · have h0 : chunkSize = 0 := by omega
        subst h0
        have hloop : splitLoop inputPath outputDir baseName (0 : Int).toNat
            (w1.fs.sizeAt inputPath + 1) 0 0 w1 = (.ok, w1) := by
          unfold splitLoop
          simp [readFull_zero]
        simp only [hneg, if_false, hloop]
        exact ⟨hfs, hpw, by simp, by simp, by simp⟩

theorem splitFile_nonpositive_chunk_witness :
    ((-1 : Int) ≤ 0) ∧
    (splitFile "/d/in" "/d/o" "x" (-1) plainWorld).2.fs = plainWorld.fs :=
  ⟨by decide, (splitFile_nonpositive_chunk plainWorld "/d/in" "/d/o" "x" (-1) (by decide)).1⟩

/-! ## No part is written twice -/

theorem readFull_trace (p : String) (o size : Nat) (w : World) :
    (readFull p o size w).2.trace = w.trace := by
  unfold readFull
  simp only [World.nextFault]
  split
  · rfl
  · split
    · rfl
    · split
      · split
        · rfl
        · split <;> rfl
      · rfl

theorem osCreate_written (p : String) (w : World) :
    ∃ t, (osCreate p w).2.trace = w.trace ++ t ∧ written t = [] := by
  unfold osCreate
  simp only [World.nextFault, World.log]
  split
  · exact ⟨_, rfl, rfl⟩
  · split <;> exact ⟨_, rfl, rfl⟩

theorem fileWrite_false {p : String} {data : List Byte} {w w' : World}
    (h : fileWrite p data w = (false, w')) :
    ∃ t, w'.trace = w.trace ++ t ∧ written t = [] := by
  unfold fileWrite at h
  simp only [World.nextFault, World.log] at h
  split at h
  · simp only [Prod.mk.injEq, true_and] at h
    subst h
    exact ⟨_, rfl, rfl⟩
  · split at h
    · simp at h
    · simp only [Prod.mk.injEq, true_and] at h
      subst h
      exact ⟨_, rfl, rfl⟩

theorem splitLoop_written_paths (inP outD base : String) (C : Nat) :
    ∀ (fuel o k : Nat) (w : World), ∃ n t,
      (splitLoop inP outD base C fuel o k w).2.trace = w.trace ++ t ∧
      (written t).map Prod.fst = (List.range n).map (fun i => partPath outD base (k + i)) := by
  intro fuel
  induction fuel with
  | zero => intro o k w; exact ⟨0, [], by simp [splitLoop], by simp [written]⟩
  | succ fuel ih =>
    intro o k w
    unfold splitLoop
    have htr1 := readFull_trace inP o C w
    cases hr : readFull inP o C w with
    | mk r w1 =>
      rw [hr] at htr1
      simp only at htr1
      cases r with
      | none => exact ⟨0, [], by simp [htr1], by simp [written]⟩
      | some be =>
        obtain ⟨buf, err⟩ := be
        simp only
        by_cases hb : buf.length = 0
        · exact ⟨0, [], by simp [hb, htr1], by simp [written]⟩
        · simp only [hb, if_false]
          obtain ⟨t2, htr2, hwr2⟩ := osCreate_written (partPath outD base k) w1
          cases hc : osCreate (partPath outD base k) w1 with
          | mk c w2 =>
            rw [hc] at htr2
            simp only at htr2
            cases c with
            | false => exact ⟨0, t2, by simp [htr2, htr1], by simp [hwr2]⟩
            | true =>
              simp only
              cases hw : fileWrite (partPath outD base k) buf w2 with
              | mk c2 w3 =>
                cases c2 with
                | false =>
                  obtain ⟨t3, htr3, hwr3⟩ := fileWrite_false hw
                  exact ⟨0, t2 ++ t3, by simp [htr3, htr2, htr1],
                    by simp [written_append, hwr2, hwr3]⟩
                | true =>
                  obtain ⟨_, _, _, htr3, _⟩ := fileWrite_true hw
                  simp only
                  by_cases he : err = .eof ∨ err = .unexpectedEOF
                  · refine ⟨1, t2 ++ [.wrote (partPath outD base k) buf], ?_, ?_⟩
                    · simp [he, htr3, htr2, htr1]
                    · simp [written_append, hwr2, written, List.range_succ]
                  · simp only [he, if_false]
                    obtain ⟨n, t, ht, hp⟩ := ih (o + buf.length) (k + 1) w3
                    refine ⟨n + 1, t2 ++ [.wrote (partPath outD base k) buf] ++ t, ?_, ?_⟩
                    · rw [ht, htr3, htr2, htr1]; simp
                    · rw [written_append, written_append, hwr2, List.range_succ_eq_map]
                      simp only [written, List.nil_append, List.singleton_append, List.map_cons,
                        List.map_map, Nat.add_zero, List.cons.injEq, true_and, hp]
                      apply List.map_congr_left
                      intro i _
                      simp only [Function.comp]
                      congr 1
                      omega

theorem splitFile_written_nodup (inP outD base : String) (C : Int) (w : World) :
    ((partsWritten w (splitFile inP outD base C w).2).map Prod.fst).Nodup := by
  obtain ⟨hfs, htr⟩ := osOpen_frame inP w
  have hgoal : ∃ n, (partsWritten w (splitFile inP outD base C w).2).map Prod.fst
      = (List.range n).map (fun i => partPath outD base (0 + i)) := by
    unfold splitFile
    cases ho : osOpen inP w with
    | mk c w1 =>
      rw [ho] at htr
      simp only at htr
      have hpw : partsWritten w w1 = [] := by
        rw [partsWritten_of_trace (t := []) (by simp [htr])]; rfl
      cases c with
      | false => exact ⟨0, by simp [hpw]⟩
      | true =>
        simp only
        by_cases hneg : C < 0
        · exact ⟨0, by simp [hneg, hpw]⟩
        · simp only [hneg, if_false]
          obtain ⟨n, t, ht, hp⟩ := splitLoop_written_paths inP outD base C.toNat
            (w1.fs.sizeAt inP + 1) 0 0 w1
          refine ⟨n, ?_⟩
          rw [partsWritten_of_trace (t := t) (by rw [ht, htr])]
          exact hp
  obtain ⟨n, hn⟩ := hgoal
  rw [hn]
  apply List.Nodup.map _ (List.nodup_range n)
  intro i j h
  have := partPath_injective outD base h
  omega

/-- Claim C10: for every base name the part name is injective in the index over all natural
numbers, and so is the part path in a given directory; hence in any call of `splitFile`,
whatever its outcome, no two writes go to the same path: no part overwrites an earlier part
of the same call. -/
theorem partFileName_index_injective :
    (∀ (baseName : String) (i j : Nat),
      partFileName baseName i = partFileName baseName j → i = j) ∧
    (∀ (outputDir baseName : String) (i j : Nat),
      partPath outputDir baseName i = partPath outputDir baseName j → i = j) ∧
    (∀ (w : World) (inputPath outputDir baseName : String) (chunkSize : Int),
      ((partsWritten w (splitFile inputPath outputDir baseName chunkSize w).2).map
        Prod.fst).Nodup) :=
  ⟨fun baseName _ _ h => partFileName_injective baseName h,
    fun outputDir baseName _ _ h => partPath_injective outputDir baseName h,
    fun w inputPath outputDir baseName chunkSize =>
      splitFile_written_nodup inputPath outputDir baseName chunkSize w⟩

end CompressMaps
